import Mathlib

/-!
# Verification of the layout-local.txt parser/editor (src/main.py)

A shallow embedding of the core of `main.py`: value coercion (`auto_cast`),
the record parser (`get_frames`), the record serializer (`serialize_frames`),
override parsing (`parse_overrides`) and the override merger (`apply_overrides`).

Modelling conventions:
* Python `str` is modelled as Lean `String` (a structure holding `List Char`);
  the helpers `pyStrip`, `pyLower`, `pyJoin`, `splitNl` model Python's
  `str.strip()`, `str.lower()`, `"\n".join(...)` and file line iteration.
  `pyStrip` strips the ASCII whitespace characters Python strips by default;
  exotic Unicode whitespace is not modelled.
* Python `int(s)` / `float(s)` string conversion is modelled by `intParse?` /
  `decParse?`: optional sign, ASCII digits, and for floats an optional
  fractional part and decimal exponent.  Numeric-literal underscores, Unicode
  digits and the `inf`/`nan` spellings are not modelled, and floats are
  idealized as exact decimal numbers `m / 10^k` held in canonical form
  (no trailing fractional zeros), which matches CPython's observable
  value semantics and shortest-repr printing on the inputs considered here.
* Python `dict` is modelled as an association list in insertion order with
  Python's update semantics (`dictSet` replaces in place, appends new keys);
  dictionaries never hold duplicate keys, so frame equality "in content" is
  `frameEquiv` (equal lookups for every key).
* `sys.exit(1)` error paths are modelled as explicit error values
  (`OvError`, `AppError`); `apply_overrides` returns the final state of the
  frame list next to the optional error, mirroring in-place mutation.
-/

/-! ## Characters and digits -/

/-- The whitespace characters stripped by Python's default `str.strip()`. -/
def isWS (c : Char) : Bool :=
  c == ' ' || c == '\t' || c == '\n' || c == '\r' || c == '\x0b' || c == '\x0c'

/-- ASCII decimal digit test. -/
def isDigitCh (c : Char) : Bool :=
  '0' ≤ c && c ≤ '9'

/-- Numeric value of an ASCII digit character. -/
def digitVal (c : Char) : ℕ := c.toNat - '0'.toNat

/-- The ASCII digit character of a value below 10. -/
def digitChar10 (n : ℕ) : Char := Char.ofNat ('0'.toNat + n)

/-- Value of a string of ASCII digits, most significant first. -/
def digitsToNat (cs : List Char) : ℕ :=
  cs.foldl (fun a c => 10 * a + digitVal c) 0

/-- Fuel-driven decimal printing helper (structural, so it reduces). -/
def natToDigitsGo : ℕ → ℕ → List Char
  | 0, n => [digitChar10 (n % 10)]
  | fuel + 1, n => if n < 10 then [digitChar10 n] else
      natToDigitsGo fuel (n / 10) ++ [digitChar10 (n % 10)]

/-- Decimal digits of a natural number (non-empty; `0 ↦ "0"`). -/
def natToDigits (n : ℕ) : List Char := natToDigitsGo n n

/-! ## Python string helpers -/

/-- Strip `isWS` characters from both ends of a character list. -/
def stripChars (l : List Char) : List Char :=
  ((l.dropWhile isWS).reverse.dropWhile isWS).reverse

/-- Model of Python `str.strip()`. -/
def pyStrip (s : String) : String := ⟨stripChars s.data⟩

/-- Model of Python `str.lower()` (ASCII case folding). -/
def pyLower (s : String) : String := ⟨s.data.map Char.toLower⟩

/-- Model of Python `sep.join(...)` restricted to a one-character separator. -/
def pyJoin (sep : Char) : List (List Char) → List Char
  | [] => []
  | [l] => l
  | l :: ls => l ++ sep :: pyJoin sep ls

/-- Split a character list at newline characters; models line iteration over
a text file (the inverse of joining with a newline). -/
def splitNl : List Char → List (List Char)
  | [] => [[]]
  | c :: rest =>
    if c = '\n' then [] :: splitNl rest
    else
      match splitNl rest with
      | [] => [[c]]
      | l :: ls => (c :: l) :: ls

/-- The raw lines of a file's text, as strings. -/
def readLines (s : String) : List String :=
  (splitNl s.data).map fun l => ⟨l⟩

/-! ## Number parsing: models of Python `int(s)` and `float(s)` -/

/-- Read an optional leading `+`/`-` sign; returns (isNegative, rest). -/
def readSign : List Char → Bool × List Char
  | [] => (false, [])
  | c :: r =>
    if c = '+' then (false, r)
    else if c = '-' then (true, r)
    else (false, c :: r)

/-- Model of Python `int(s)`: strip whitespace, optional sign, one or more
ASCII decimal digits. -/
def intParse? (s : String) : Option ℤ :=
  let t := stripChars s.data
  let (neg, ds) := readSign t
  if ds ≠ [] ∧ ds.all isDigitCh then
    some ((if neg then -1 else 1) * (digitsToNat ds : ℤ))
  else none

/-- Put a scaled decimal `m / 10^k` into canonical form: while the fractional
length is positive and `m` ends in a zero digit, cancel one factor of ten. -/
def canonDec : ℤ → ℕ → ℤ × ℕ
  | m, 0 => (m, 0)
  | m, k + 1 => if m % 10 = 0 then canonDec (m / 10) k else (m, k + 1)

/-- Model of Python `float(s)` on decimal syntax: strip whitespace, optional
sign, digits with an optional dot, optional decimal exponent.  The result is
the exact value as a canonical scaled decimal `(m, k)` denoting `m / 10^k`. -/
def decParse? (s : String) : Option (ℤ × ℕ) :=
  let t := stripChars s.data
  let (neg, body) := readSign t
  let mant := body.takeWhile fun c => !(c == 'e' || c == 'E')
  let expPart := body.dropWhile fun c => !(c == 'e' || c == 'E')
  let ip := mant.takeWhile fun c => !(c == '.')
  let fp := (mant.dropWhile fun c => !(c == '.')).tail
  let exp? : Option ℤ :=
    match expPart with
    | [] => some 0
    | _ :: ecs =>
      let (eneg, eds) := readSign ecs
      if eds ≠ [] ∧ eds.all isDigitCh then
        some ((if eneg then -1 else 1) * (digitsToNat eds : ℤ))
      else none
  match exp? with
  | none => none
  | some e =>
    if ip.all isDigitCh ∧ fp.all isDigitCh ∧ ip ++ fp ≠ [] then
      let m0 : ℕ := digitsToNat (ip ++ fp)
      let k0 : ℕ := fp.length
      let mk : ℤ × ℕ :=
        if 0 ≤ e then ((m0 : ℤ) * 10 ^ e.toNat, k0) else ((m0 : ℤ), k0 + (-e).toNat)
      some (canonDec ((if neg then -1 else 1) * mk.1) mk.2)
    else none

/-! ## Values -/

/-- A typed value: Python `int`, `float` (as an exact canonical scaled decimal
`m / 10^k`), or `str`. -/
inductive Value : Type
  | int (n : ℤ)
  | real (m : ℤ) (k : ℕ)
  | text (s : String)
deriving DecidableEq, Repr

/-- Model of `auto_cast` (main.py lines 8-27): try `int(value)`, then
`float(value)`, else return `value.strip()`. -/
def auto_cast (s : String) : Value :=
  match intParse? s with
  | some n => .int n
  | none =>
    match decParse? s with
    | some (m, k) => .real m k
    | none => .text (pyStrip s)

/-- Decimal rendering of an integer, as Python `str(int)` prints it. -/
def intRender (n : ℤ) : List Char :=
  (if n < 0 then ['-'] else []) ++ natToDigits n.natAbs

/-- The digits of `|m|` padded with leading zeros to at least `k + 1`
digits (so a decimal point can be placed `k` digits from the right). -/
def paddedDigits (m : ℤ) (k : ℕ) : List Char :=
  List.replicate (k + 1 - (natToDigits m.natAbs).length) '0' ++ natToDigits m.natAbs

/-- Decimal rendering of a canonical scaled decimal, as Python `str(float)`
prints it for values in the plain-notation range: sign, integer digits, a
dot, and at least one fractional digit. -/
def realRender (m : ℤ) (k : ℕ) : List Char :=
  let ds := paddedDigits m k
  (if m < 0 then ['-'] else []) ++
    ds.take (ds.length - k) ++ '.' ::
      (if k = 0 then ['0'] else ds.drop (ds.length - k))

/-- Model of Python `str(value)` as used by the f-strings in
`serialize_frames`. -/
def renderValue : Value → String
  | .int n => ⟨intRender n⟩
  | .real m k => ⟨realRender m k⟩
  | .text s => s

/-! ## Frames: Python dictionaries as association lists -/

/-- A frame: a Python dict from field key to value, modelled as an
association list in insertion order with no duplicate keys. -/
abbrev Frame : Type := List (String × Value)

/-- Model of Python `d[k] = v`: replace in place if the key is present,
else append at the end. -/
def dictSet (f : Frame) (k : String) (v : Value) : Frame :=
  match f with
  | [] => [(k, v)]
  | (k1, v1) :: rest => if k1 = k then (k, v) :: rest else (k1, v1) :: dictSet rest k v

/-- Model of Python `d.get(k)` (and of `d[k]` where the key is known
present). -/
def dictGet? (f : Frame) (k : String) : Option Value :=
  match f with
  | [] => none
  | (k1, v1) :: rest => if k1 = k then some v1 else dictGet? rest k

/-- The keys of a frame, in insertion order. -/
def dictKeys (f : Frame) : List String := f.map Prod.fst

/-- Content equality of two frames: Python `dict.__eq__` (same key set,
equal values), which ignores insertion order. -/
def frameEquiv (f g : Frame) : Prop := ∀ k, dictGet? f k = dictGet? g k

/-! ## The record parser: `parse_kv_line` and `get_frames` -/

/-- Model of `parse_kv_line` (main.py lines 29-46): `none` models the
`(None, None)` return for a line without a colon; otherwise split at the
first colon, strip both sides, and auto-cast the value side. -/
def parse_kv_line (line : String) : Option (String × Value) :=
  if line.data.contains ':' then
    let k := line.data.takeWhile fun c => !(c == ':')
    let rest := (line.data.dropWhile fun c => !(c == ':')).tail
    some (⟨stripChars k⟩, auto_cast (pyStrip ⟨rest⟩))
  else none

/-- One step of the frame-building loop body (main.py lines 76-79):
`if key: frame_data[key] = value`, where a falsy key is `None` (no colon)
or the empty string. -/
def frameStep (fd : Frame) (line : String) : Frame :=
  match parse_kv_line line with
  | some (k, v) => if k ≠ "" then dictSet fd k v else fd
  | none => fd

/-- Build one frame from the lines of one record block. -/
def buildFrame (ls : List String) : Frame := ls.foldl frameStep []

/-- The chunking loop of `get_frames` (main.py lines 74-81): consume blocks
of exactly 7 lines while at least 7 remain; a shorter tail is discarded. -/
def chunkFrames : List String → List Frame
  | a :: b :: c :: d :: e :: f :: g :: rest =>
      buildFrame [a, b, c, d, e, f, g] :: chunkFrames rest
  | _ => []

/-- The non-empty stripped lines of the raw text (main.py line 65). -/
def stripLines (raw : String) : List String :=
  ((readLines raw).map pyStrip).filter fun l => l ≠ ""

/-- Model of `get_frames` (main.py lines 48-83) on the file's text: returns
the frame list and the version header. -/
def get_frames (raw : String) : List Frame × String :=
  match stripLines raw with
  | [] => ([], "")
  | header :: rest => (chunkFrames rest, header)

/-! ## The record serializer: `serialize_frames` -/

/-- String ordering used to model Python `sorted` on `str` (both compare
lexicographically by code point). -/
abbrev strLe : String → String → Prop := fun a b => a ≤ b

/-- Render an optional value; an absent value renders as the empty string
(mirroring `frame.get('Frame', '')`). -/
def renderOpt : Option Value → String
  | some v => renderValue v
  | none => ""

/-- The serialized lines of one frame (main.py lines 102-106): the `Frame`
field first, then every other key in ascending sorted order. -/
def frameLines (f : Frame) : List String :=
  let keys := ((dictKeys f).filter fun k => k ≠ "Frame").insertionSort strLe
  ("Frame: " ++ renderOpt (dictGet? f "Frame")) ::
    keys.map fun k => k ++ ": " ++ renderOpt (dictGet? f k)

/-- The full output line list of `serialize_frames`: header, then each
frame's lines. -/
def serializeLines (frames : List Frame) (header : String) : List String :=
  header :: (frames.map frameLines).flatten

/-- Model of `serialize_frames` (main.py lines 85-107): join the output
lines with a single newline. -/
def serialize_frames (frames : List Frame) (header : String) : String :=
  ⟨pyJoin '\n' ((serializeLines frames header).map String.data)⟩

/-! ## Override parsing: `parse_overrides` -/

/-- The fixed key allow-list `VALID_KEYS` (main.py line 5).  The Python
value is a set; it is modelled as a duplicate-free list, which suffices
because lowercase images of its members are pairwise distinct. -/
def VALID_KEYS : List String := ["Frame", "FrameLevel", "Anchor", "X", "Y", "W", "H"]

/-- The errors of `parse_overrides` (modelling its `sys.exit(1)` paths):
a token without `=`, or a key outside the allow-list. -/
inductive OvError : Type
  | malformed (tok : String)
  | invalidKey (key : String)
deriving DecidableEq, Repr

/-- The canonical-casing member of `VALID_KEYS` matching a key
case-insensitively, if any (main.py lines 133-138). -/
def properKey? (k : String) : Option String :=
  VALID_KEYS.find? fun vk => pyLower vk = pyLower k

/-- The stripped key part of a `key=value` token (before the first `=`). -/
def tokenKey (p : String) : String :=
  pyStrip ⟨p.data.takeWhile fun c => !(c == '=')⟩

/-- The stripped value part of a `key=value` token (after the first `=`). -/
def tokenVal (p : String) : String :=
  pyStrip ⟨(p.data.dropWhile fun c => !(c == '=')).tail⟩

/-- A token that `parse_overrides` accepts: it contains `=` and its key is
case-insensitively in the allow-list. -/
def goodToken (p : String) : Prop :=
  p.data.contains '=' = true ∧ (properKey? (tokenKey p)).isSome = true

instance (p : String) : Decidable (goodToken p) :=
  inferInstanceAs (Decidable (_ ∧ _))

/-- The loop of `parse_overrides` over the remaining tokens, carrying the
accumulated override dict. -/
def parseOverridesGo : List String → Frame → Except OvError Frame
  | [], acc => .ok acc
  | pair :: rest, acc =>
    if pair.data.contains '=' then
      match properKey? (tokenKey pair) with
      | some pk => parseOverridesGo rest (dictSet acc pk (auto_cast (tokenVal pair)))
      | none => .error (.invalidKey (tokenKey pair))
    else .error (.malformed pair)

/-- Model of `parse_overrides` (main.py lines 109-140). -/
def parse_overrides (pairs : List String) : Except OvError Frame :=
  parseOverridesGo pairs []

/-! ## The override merger: `apply_overrides` -/

/-- The errors of `apply_overrides` (modelling its `sys.exit(1)` paths). -/
inductive AppError : Type
  | missingIdentity
  | frameNotFound (name : Value)
deriving DecidableEq, Repr

/-- Python truthiness of a value: `0`, `0.0` and `""` are falsy. -/
def pyFalsy : Value → Bool
  | .int n => n = 0
  | .real m _ => m = 0
  | .text s => s = ""

/-- Python `==` between two values: numeric values compare across the
`int`/`float` divide by exact numeric value; strings never equal numbers. -/
def pyEq : Value → Value → Bool
  | .int a, .int b => a = b
  | .int a, .real m k => a * 10 ^ k = m
  | .real m k, .int b => m = b * 10 ^ k
  | .real m k, .real m1 k1 => m * 10 ^ k1 = m1 * 10 ^ k
  | .text s, .text t => s = t
  | .int _, .text _ => false
  | .real _ _, .text _ => false
  | .text _, .int _ => false
  | .text _, .real _ _ => false

/-- The loop condition `frame.get("Frame") == target_name` (main.py
line 196); Python's `None == v` is `False` for every value `v`. -/
def frameMatches (f : Frame) (target : Value) : Bool :=
  match dictGet? f "Frame" with
  | some v => pyEq v target
  | none => false

/-- The merge body (main.py lines 197-199): set every override pair on the
frame except the `"Frame"` identity key. -/
def mergeFrame (f : Frame) (ov : Frame) : Frame :=
  ov.foldl (fun g kv => if kv.1 ≠ "Frame" then dictSet g kv.1 kv.2 else g) f

/-- The frame-scanning loop of `apply_overrides`: update the first matching
frame in place and stop; `none` if no frame matches. -/
def applyLoop (ov : Frame) (target : Value) : List Frame → Option (List Frame)
  | [] => none
  | f :: rest =>
    if frameMatches f target then some (mergeFrame f ov :: rest)
    else (applyLoop ov target rest).map fun l => f :: l

/-- Model of `apply_overrides` (main.py lines 176-203): returns the optional
error together with the final state of the (in-place mutated) frame list. -/
def apply_overrides (frames : List Frame) (ov : Frame) : Option AppError × List Frame :=
  match dictGet? ov "Frame" with
  | none => (some .missingIdentity, frames)
  | some target =>
    if pyFalsy target then (some .missingIdentity, frames)
    else
      match applyLoop ov target frames with
      | some updated => (none, updated)
      | none => (some (.frameNotFound target), frames)

/-! ## Well-formedness predicates used by the round-trip development -/

/-- A canonical value: reals are canonical scaled decimals, and text is
trimmed and rejected by both numeric parses (exactly the shape `auto_cast`
produces). -/
def ValueWf : Value → Prop
  | .int _ => True
  | .real m k => k = 0 ∨ m % 10 ≠ 0
  | .text s => pyStrip s = s ∧ intParse? s = none ∧ decParse? s = none

/-- A canonical value whose rendering is newline-free (true of every value
parsed out of a line of text). -/
def ValueLineWf (v : Value) : Prop :=
  ValueWf v ∧ '\n' ∉ (renderValue v).data

/-- A key as stored by the parser: non-empty, trimmed, and containing
neither a colon nor a newline. -/
def KeyWf (k : String) : Prop :=
  k ≠ "" ∧ pyStrip k = k ∧ ':' ∉ k.data ∧ '\n' ∉ k.data

/-- A frame as produced by the parser: duplicate-free keys, and every field
well formed. -/
def FrameWf (f : Frame) : Prop :=
  (dictKeys f).Nodup ∧ ∀ kv ∈ f, KeyWf kv.1 ∧ ValueLineWf kv.2

instance : IsAntisymm String strLe := ⟨fun _ _ h1 h2 => le_antisymm h1 h2⟩

instance : IsTotal String strLe := ⟨fun a b => le_total a b⟩

instance : IsTrans String strLe := ⟨fun _ _ _ h1 h2 => le_trans h1 h2⟩

/-! ## Concrete inputs used by counterexamples and witnesses -/

/-- A file text with a header, one full 7-line record, and 8 further
non-empty lines (a second full record's worth plus one line over). -/
def twoRecordInput : String :=
  "v1\nFrame: A\nX: 1\nY: 2\nW: 10\nH: 20\nAnchor: TL\nFrameLevel: 0\n" ++
    "Frame: B\nX: 1\nY: 2\nW: 10\nH: 20\nAnchor: TL\nFrameLevel: 1\nextra"

/-- A file text whose single 7-line record contains five colon-less lines,
so its frame holds only two fields. -/
def sparseRecordInput : String :=
  "v1\nFrame: A\nX: 1\njunk\njunk\njunk\njunk\njunk"

/-- A well-formed single-record file text (the spec's section-8 example). -/
def fullRecordInput : String :=
  "v1\nFrame: A\nX: 1\nY: 2\nW: 10\nH: 20\nAnchor: TL\nFrameLevel: 0"

/-! ## Sanity examples for the embedding -/

example : auto_cast "42" = .int 42 := by decide
example : auto_cast "007" = .int 7 := by decide
example : auto_cast "-5" = .int (-5) := by decide
example : auto_cast "3.14" = .real 314 2 := by decide
example : auto_cast "1.0" = .real 1 0 := by decide
example : auto_cast " hello " = .text "hello" := by decide
example : auto_cast "" = .text "" := by decide
example : auto_cast "1.5e-3" = .real 15 4 := by decide
example : auto_cast "5e2" = .real 500 0 := by decide
example : renderValue (.real 1 0) = "1.0" := by decide
example : renderValue (.real (-5) 1) = "-0.5" := by decide
example : renderValue (.int (-12)) = "-12" := by decide

example :
    get_frames fullRecordInput =
      ([[("Frame", .text "A"), ("X", .int 1), ("Y", .int 2), ("W", .int 10),
          ("H", .int 20), ("Anchor", .text "TL"), ("FrameLevel", .int 0)]], "v1") := by
  decide

example :
    serialize_frames [[("Frame", .text "A"), ("X", .int 1)]] "v1" =
      "v1\nFrame: A\nX: 1" := by decide

example : parse_overrides ["anchor=TL"] = .ok [("Anchor", .text "TL")] := by rfl

example : parse_overrides ["frame=A", "z=1"] = .error (.invalidKey "z") := by rfl

example :
    apply_overrides [[("Frame", .text "A"), ("X", .int 1)]]
        [("Frame", .text "A"), ("X", .int 99)] =
      (none, [[("Frame", .text "A"), ("X", .int 99)]]) := by decide

example :
    apply_overrides [[("Frame", .text "A")]] [("Frame", .text "B")] =
      (some (.frameNotFound (.text "B")), [[("Frame", .text "A")]]) := by decide

/-! ## Dictionary lemmas -/

theorem dictGet?_dictSet_self (f : Frame) (k : String) (v : Value) :
    dictGet? (dictSet f k v) k = some v := by
  induction f with
  | nil => simp [dictSet, dictGet?]
  | cons kv rest ih =>
    obtain ⟨k1, v1⟩ := kv
    by_cases h : k1 = k
    · simp [dictSet, dictGet?, h]
    · simp [dictSet, dictGet?, h, ih]

theorem dictGet?_dictSet_ne (f : Frame) (k q : String) (v : Value) (h : k ≠ q) :
    dictGet? (dictSet f k v) q = dictGet? f q := by
  induction f with
  | nil => simp [dictSet, dictGet?, h]
  | cons kv rest ih =>
    obtain ⟨k1, v1⟩ := kv
    by_cases h1 : k1 = k
    · subst h1
      rw [dictSet, if_pos rfl, dictGet?, dictGet?, if_neg h, if_neg h]
    · rw [dictSet, if_neg h1, dictGet?, dictGet?]
      by_cases h2 : k1 = q
      · rw [if_pos h2, if_pos h2]
      · rw [if_neg h2, if_neg h2, ih]

theorem dictSet_of_get_eq (f : Frame) (k : String) (v : Value)
    (h : dictGet? f k = some v) : dictSet f k v = f := by
  induction f with
  | nil => simp [dictGet?] at h
  | cons kv rest ih =>
    obtain ⟨k1, v1⟩ := kv
    by_cases h1 : k1 = k
    · subst h1
      simp [dictGet?] at h
      simp [dictSet, h]
    · simp [dictGet?, h1] at h
      simp [dictSet, h1, ih h]

theorem mem_dictSet (f : Frame) (k : String) (v : Value) (kv : String × Value)
    (h : kv ∈ dictSet f k v) : kv ∈ f ∨ kv = (k, v) := by
  induction f with
  | nil =>
    rw [dictSet] at h
    exact Or.inr (List.mem_singleton.mp h)
  | cons kv1 rest ih =>
    obtain ⟨k1, v1⟩ := kv1
    by_cases h1 : k1 = k
    · rw [dictSet, if_pos h1] at h
      rcases List.mem_cons.mp h with h2 | h2
      · exact Or.inr h2
      · exact Or.inl (List.mem_cons_of_mem _ h2)
    · rw [dictSet, if_neg h1] at h
      rcases List.mem_cons.mp h with h2 | h2
      · exact Or.inl (h2 ▸ List.mem_cons_self _ _)
      · rcases ih h2 with h3 | h3
        · exact Or.inl (List.mem_cons_of_mem _ h3)
        · exact Or.inr h3

theorem dictKeys_dictSet (f : Frame) (k : String) (v : Value) :
    dictKeys (dictSet f k v) =
      if k ∈ dictKeys f then dictKeys f else dictKeys f ++ [k] := by
  induction f with
  | nil => simp [dictSet, dictKeys]
  | cons kv rest ih =>
    obtain ⟨k1, v1⟩ := kv
    by_cases h1 : k1 = k
    · subst h1
      simp [dictSet, dictKeys]
    · have hne : ¬k = k1 := fun h => h1 h.symm
      have hkeys : dictKeys ((k1, v1) :: dictSet rest k v) = k1 :: dictKeys (dictSet rest k v) := rfl
      rw [dictSet, if_neg h1, hkeys, ih]
      by_cases hm : k ∈ dictKeys rest
      · rw [if_pos hm, if_pos (show k ∈ dictKeys ((k1, v1) :: rest) from
          List.mem_cons_of_mem _ hm)]
        rfl
      · have hnotc : k ∉ dictKeys ((k1, v1) :: rest) := by
          intro hc
          rcases List.mem_cons.mp hc with hc | hc
          · exact hne hc
          · exact hm hc
        rw [if_neg hm, if_neg hnotc]
        rfl

/-! ## Merge lemmas -/

/-- The merge never touches the `"Frame"` identity key. -/
theorem mergeFrame_get_Frame (f ov : Frame) :
    dictGet? (mergeFrame f ov) "Frame" = dictGet? f "Frame" := by
  induction ov generalizing f with
  | nil => rfl
  | cons kv rest ih =>
    obtain ⟨k, v⟩ := kv
    by_cases h : k = "Frame"
    · simpa [mergeFrame, h] using ih f
    · have : dictGet? (dictSet f k v) "Frame" = dictGet? f "Frame" :=
        dictGet?_dictSet_ne f k "Frame" v h
      simpa [mergeFrame, h, this] using ih (dictSet f k v)

/-- Merging keys that a frame does not mention leaves its lookups alone. -/
theorem mergeFrame_get_of_not_mem (f ov : Frame) (q : String)
    (h : ∀ kv ∈ ov, kv.1 ≠ q) :
    dictGet? (mergeFrame f ov) q = dictGet? f q := by
  induction ov generalizing f with
  | nil => rfl
  | cons kv rest ih =>
    obtain ⟨k, v⟩ := kv
    have hk : k ≠ q := h (k, v) (List.mem_cons_self _ _)
    have hrest : ∀ kv ∈ rest, kv.1 ≠ q := fun kv hm => h kv (List.mem_cons_of_mem _ hm)
    by_cases hF : k = "Frame"
    · simpa [mergeFrame, hF] using ih f hrest
    · have : dictGet? (dictSet f k v) q = dictGet? f q := dictGet?_dictSet_ne f k q v hk
      simpa [mergeFrame, hF, this] using ih (dictSet f k v) hrest

/-- Unfolding lemma for `mergeFrame` on a cons cell. -/
theorem mergeFrame_cons (f : Frame) (k : String) (v : Value) (rest : Frame) :
    mergeFrame f ((k, v) :: rest) =
      mergeFrame (if k ≠ "Frame" then dictSet f k v else f) rest := rfl

/-- Replaying a duplicate-free override on an already-merged frame changes
nothing (the heart of idempotence). -/
theorem mergeFrame_twice (ov : Frame) (hnd : (dictKeys ov).Nodup) (f : Frame) :
    mergeFrame (mergeFrame f ov) ov = mergeFrame f ov := by
  induction ov generalizing f with
  | nil => rfl
  | cons kv rest ih =>
    obtain ⟨k, v⟩ := kv
    have hcons : (k :: dictKeys rest).Nodup := hnd
    have hk : k ∉ dictKeys rest := (List.nodup_cons.mp hcons).1
    have hnd1 : (dictKeys rest).Nodup := (List.nodup_cons.mp hcons).2
    by_cases hF : k = "Frame"
    · rw [mergeFrame_cons, mergeFrame_cons, if_neg (by simp [hF]), if_neg (by simp [hF])]
      exact ih hnd1 f
    · have hget : dictGet? (mergeFrame (dictSet f k v) rest) k = some v := by
        have hnm : ∀ kv ∈ rest, kv.1 ≠ k := by
          intro kv hm he
          exact hk (he ▸ List.mem_map_of_mem Prod.fst hm)
        rw [mergeFrame_get_of_not_mem _ _ _ hnm, dictGet?_dictSet_self]
      have hset : dictSet (mergeFrame (dictSet f k v) rest) k v =
          mergeFrame (dictSet f k v) rest := dictSet_of_get_eq _ _ _ hget
      rw [mergeFrame_cons, mergeFrame_cons, if_pos hF, if_pos hF, hset]
      exact ih hnd1 (dictSet f k v)

/-! ## Chunking lemmas -/

theorem chunkFrames_of_short (ls : List String) (h : ls.length < 7) :
    chunkFrames ls = [] := by
  match ls with
  | [] => rfl
  | [_] => rfl
  | [_, _] => rfl
  | [_, _, _] => rfl
  | [_, _, _, _] => rfl
  | [_, _, _, _, _] => rfl
  | [_, _, _, _, _, _] => rfl
  | _ :: _ :: _ :: _ :: _ :: _ :: _ :: rest =>
    simp only [List.length_cons] at h
    omega

theorem chunkFrames_length (ls : List String) :
    (chunkFrames ls).length = ls.length / 7 := by
  induction ls using chunkFrames.induct with
  | case1 a b c d e f g rest ih =>
    simp only [chunkFrames, List.length_cons, ih]
    omega
  | case2 ls h =>
    have hlen : ls.length < 7 := by
      match ls, h with
      | [], _ => simp
      | [_], _ => simp
      | [_, _], _ => simp
      | [_, _, _], _ => simp
      | [_, _, _, _], _ => simp
      | [_, _, _, _, _], _ => simp
      | [_, _, _, _, _, _], _ => simp
      | a :: b :: c :: d :: e :: f :: g :: rest, h =>
        exact absurd rfl (h a b c d e f g rest)
    rw [chunkFrames_of_short ls hlen]
    simp [Nat.div_eq_of_lt hlen]

theorem chunkFrames_append_of_dvd (ls extra : List String) (hdvd : 7 ∣ ls.length)
    (hlt : extra.length < 7) : chunkFrames (ls ++ extra) = chunkFrames ls := by
  induction ls using chunkFrames.induct with
  | case1 a b c d e f g rest ih =>
    have hdvd1 : 7 ∣ rest.length := by
      simp only [List.length_cons] at hdvd
      omega
    show buildFrame [a, b, c, d, e, f, g] :: chunkFrames (rest ++ extra) = _
    rw [ih hdvd1]
    rfl
  | case2 ls h =>
    have hlen : ls.length < 7 := by
      match ls, h with
      | [], _ => simp
      | [_], _ => simp
      | [_, _], _ => simp
      | [_, _, _], _ => simp
      | [_, _, _, _], _ => simp
      | [_, _, _, _, _], _ => simp
      | [_, _, _, _, _, _], _ => simp
      | a :: b :: c :: d :: e :: f :: g :: rest, h =>
        exact absurd rfl (h a b c d e f g rest)
    have h0 : ls.length = 0 := by omega
    have hnil : ls = [] := List.length_eq_zero.mp h0
    subst hnil
    simp only [List.nil_append]
    rw [chunkFrames_of_short extra hlt, chunkFrames_of_short [] (by simp)]

/-! ## Lookup-loop lemmas -/

theorem applyLoop_of_no_match (ov : Frame) (t : Value) (fs : List Frame)
    (h : ∀ f ∈ fs, frameMatches f t = false) : applyLoop ov t fs = none := by
  induction fs with
  | nil => rfl
  | cons f rest ih =>
    have hf : frameMatches f t = false := h f (List.mem_cons_self _ _)
    have hrest := ih fun g hm => h g (List.mem_cons_of_mem _ hm)
    simp [applyLoop, hf, hrest]

theorem applyLoop_first_match (ov : Frame) (t : Value) (pre post : List Frame)
    (f : Frame) (hpre : ∀ g ∈ pre, frameMatches g t = false)
    (hf : frameMatches f t = true) :
    applyLoop ov t (pre ++ f :: post) = some (pre ++ mergeFrame f ov :: post) := by
  induction pre with
  | nil => simp [applyLoop, hf]
  | cons g rest ih =>
    have hg : frameMatches g t = false := hpre g (List.mem_cons_self _ _)
    have := ih fun g1 hm => hpre g1 (List.mem_cons_of_mem _ hm)
    simp [applyLoop, hg, this]

theorem applyLoop_eq_some (ov : Frame) (t : Value) (fs us : List Frame)
    (h : applyLoop ov t fs = some us) :
    ∃ pre f post, fs = pre ++ f :: post ∧ (∀ g ∈ pre, frameMatches g t = false) ∧
      frameMatches f t = true ∧ us = pre ++ mergeFrame f ov :: post := by
  induction fs generalizing us with
  | nil => simp [applyLoop] at h
  | cons f rest ih =>
    by_cases hf : frameMatches f t = true
    · refine ⟨[], f, rest, by simp, by simp, hf, ?_⟩
      simp [applyLoop, hf] at h
      simp [h.symm]
    · simp [applyLoop, Bool.of_not_eq_true hf] at h
      obtain ⟨us1, hus1, hrest⟩ := h
      obtain ⟨pre, f1, post, hsplit, hpre, hf1, hu⟩ := ih us1 hus1
      refine ⟨f :: pre, f1, post, by simp [hsplit], ?_, hf1, by simp [hu, hrest.symm]⟩
      intro g hg
      rcases List.mem_cons.mp hg with rfl | hg
      · exact Bool.of_not_eq_true hf
      · exact hpre g hg

/-! ## Stripping lemmas -/

theorem stripChars_eq_rdrop (l : List Char) :
    stripChars l = List.rdropWhile isWS (l.dropWhile isWS) := rfl

theorem stripChars_head_not (l : List Char) (hl : 0 < (stripChars l).length) :
    isWS ((stripChars l).get ⟨0, hl⟩) = false := by
  have hpre : stripChars l <+: l.dropWhile isWS := by
    rw [stripChars_eq_rdrop]
    exact List.rdropWhile_prefix _ _
  have hlen : 0 < (l.dropWhile isWS).length := lt_of_lt_of_le hl hpre.length_le
  have hnot : ¬ isWS ((l.dropWhile isWS).get ⟨0, hlen⟩) = true :=
    List.dropWhile_get_zero_not isWS l hlen
  have hget : (stripChars l).get ⟨0, hl⟩ = (l.dropWhile isWS).get ⟨0, hlen⟩ := by
    simp only [List.get_eq_getElem]
    exact hpre.getElem hl
  rw [hget]
  exact Bool.of_not_eq_true hnot

theorem dropWhile_stripChars (l : List Char) :
    (stripChars l).dropWhile isWS = stripChars l := by
  rw [List.dropWhile_eq_self_iff]
  intro hl
  rw [stripChars_head_not l hl]
  simp

theorem stripChars_idem (l : List Char) : stripChars (stripChars l) = stripChars l := by
  calc stripChars (stripChars l)
      = List.rdropWhile isWS ((stripChars l).dropWhile isWS) := rfl
    _ = List.rdropWhile isWS (List.rdropWhile isWS (l.dropWhile isWS)) := by
        rw [dropWhile_stripChars, stripChars_eq_rdrop]
    _ = List.rdropWhile isWS (l.dropWhile isWS) := List.rdropWhile_idempotent _ _
    _ = stripChars l := rfl

theorem pyStrip_idem (s : String) : pyStrip (pyStrip s) = pyStrip s :=
  congrArg String.mk (stripChars_idem s.data)

/-! ## Parsed-key invariants -/

theorem parse_kv_line_key (line : String) (k : String) (v : Value)
    (h : parse_kv_line line = some (k, v)) : pyStrip k = k := by
  unfold parse_kv_line at h
  by_cases hc : line.data.contains ':'
  · rw [if_pos hc] at h
    have hk : k = ⟨stripChars (line.data.takeWhile fun c => !(c == ':'))⟩ :=
      congrArg Prod.fst (Option.some.inj h).symm
    rw [hk]
    exact congrArg String.mk (stripChars_idem _)
  · rw [if_neg hc] at h
    exact absurd h (by simp)

theorem frameStep_keys (fd : Frame) (line : String)
    (hfd : ∀ kv ∈ fd, kv.1 ≠ "" ∧ pyStrip kv.1 = kv.1) :
    ∀ kv ∈ frameStep fd line, kv.1 ≠ "" ∧ pyStrip kv.1 = kv.1 := by
  intro kv hkv
  unfold frameStep at hkv
  cases hp : parse_kv_line line with
  | none =>
    rw [hp] at hkv
    exact hfd kv hkv
  | some kv1 =>
    obtain ⟨k, v⟩ := kv1
    simp only [hp] at hkv
    by_cases hk : k ≠ ""
    · rw [if_pos hk] at hkv
      rcases mem_dictSet _ _ _ _ hkv with h1 | h1
      · exact hfd kv h1
      · rw [h1]
        exact ⟨hk, parse_kv_line_key line k v hp⟩
    · rw [if_neg hk] at hkv
      exact hfd kv hkv

theorem buildFrame_keys (ls : List String) :
    ∀ kv ∈ buildFrame ls, kv.1 ≠ "" ∧ pyStrip kv.1 = kv.1 := by
  have hgen : ∀ (ls : List String) (fd : Frame),
      (∀ kv ∈ fd, kv.1 ≠ "" ∧ pyStrip kv.1 = kv.1) →
      ∀ kv ∈ ls.foldl frameStep fd, kv.1 ≠ "" ∧ pyStrip kv.1 = kv.1 := by
    intro ls
    induction ls with
    | nil => intro fd hfd kv hkv; exact hfd kv hkv
    | cons line rest ih =>
      intro fd hfd kv hkv
      exact ih (frameStep fd line) (frameStep_keys fd line hfd) kv hkv
  exact hgen ls [] fun kv hkv => absurd hkv (List.not_mem_nil kv)

theorem mem_chunkFrames (ls : List String) (f : Frame) (h : f ∈ chunkFrames ls) :
    ∃ b : List String, f = buildFrame b := by
  induction ls using chunkFrames.induct with
  | case1 a b c d e f1 g rest ih =>
    rcases List.mem_cons.mp h with h1 | h1
    · exact ⟨[a, b, c, d, e, f1, g], h1⟩
    · exact ih h1
  | case2 ls hno =>
    have hlen : ls.length < 7 := by
      match ls, hno with
      | [], _ => simp
      | [_], _ => simp
      | [_, _], _ => simp
      | [_, _, _], _ => simp
      | [_, _, _, _], _ => simp
      | [_, _, _, _, _], _ => simp
      | [_, _, _, _, _, _], _ => simp
      | a :: b :: c :: d :: e :: f1 :: g :: rest, hno =>
        exact absurd rfl (hno a b c d e f1 g rest)
    rw [chunkFrames_of_short ls hlen] at h
    exact absurd h (List.not_mem_nil f)

/-! ## Override-parsing lemmas -/

theorem parseOverridesGo_cons (p : String) (rest : List String) (acc : Frame) :
    parseOverridesGo (p :: rest) acc =
      if p.data.contains '=' then
        match properKey? (tokenKey p) with
        | some pk => parseOverridesGo rest (dictSet acc pk (auto_cast (tokenVal p)))
        | none => .error (.invalidKey (tokenKey p))
      else .error (.malformed p) := rfl

theorem parseOverridesGo_error (ts : List String) (acc : Frame)
    (h : ∃ t ∈ ts, ¬ goodToken t) :
    ∃ t ∈ ts, ¬ goodToken t ∧
      (parseOverridesGo ts acc = .error (.malformed t) ∨
       parseOverridesGo ts acc = .error (.invalidKey (tokenKey t))) := by
  induction ts generalizing acc with
  | nil =>
    obtain ⟨t, ht, _⟩ := h
    exact absurd ht (List.not_mem_nil t)
  | cons p rest ih =>
    by_cases hg : goodToken p
    · obtain ⟨hc, hk⟩ := hg
      obtain ⟨pk, hpk⟩ := Option.isSome_iff_exists.mp hk
      have hstep : parseOverridesGo (p :: rest) acc =
          parseOverridesGo rest (dictSet acc pk (auto_cast (tokenVal p))) := by
        rw [parseOverridesGo_cons, if_pos hc, hpk]
      obtain ⟨t, ht, htb⟩ := h
      rcases List.mem_cons.mp ht with rfl | htr
      · exact absurd ⟨hc, hk⟩ htb
      · obtain ⟨t1, ht1, hb1, hres⟩ :=
          ih (dictSet acc pk (auto_cast (tokenVal p))) ⟨t, htr, htb⟩
        exact ⟨t1, List.mem_cons_of_mem _ ht1, hb1, by rw [hstep]; exact hres⟩
    · by_cases hc : p.data.contains '='
      · have hk : properKey? (tokenKey p) = none := by
          cases hpk : properKey? (tokenKey p) with
          | none => rfl
          | some pk => exact absurd ⟨hc, by simp [hpk]⟩ hg
        refine ⟨p, List.mem_cons_self _ _, hg, Or.inr ?_⟩
        rw [parseOverridesGo_cons, if_pos hc, hk]
      · refine ⟨p, List.mem_cons_self _ _, hg, Or.inl ?_⟩
        rw [parseOverridesGo_cons, if_neg hc]

theorem parseOverridesGo_ok_keys (ts : List String) (acc m : Frame)
    (hacc : ∀ kv ∈ acc, kv.1 ∈ VALID_KEYS)
    (h : parseOverridesGo ts acc = .ok m) :
    ∀ kv ∈ m, kv.1 ∈ VALID_KEYS := by
  induction ts generalizing acc with
  | nil =>
    have hm : acc = m := by simpa [parseOverridesGo] using h
    exact hm ▸ hacc
  | cons p rest ih =>
    by_cases hc : p.data.contains '='
    · cases hpk : properKey? (tokenKey p) with
      | some pk =>
        have hstep : parseOverridesGo (p :: rest) acc =
            parseOverridesGo rest (dictSet acc pk (auto_cast (tokenVal p))) := by
          rw [parseOverridesGo_cons, if_pos hc, hpk]
        have hpkmem : pk ∈ VALID_KEYS := List.mem_of_find?_eq_some hpk
        refine ih _ ?_ (hstep ▸ h)
        intro kv hkv
        rcases mem_dictSet _ _ _ _ hkv with h1 | h1
        · exact hacc kv h1
        · rw [h1]
          exact hpkmem
      | none =>
        rw [show parseOverridesGo (p :: rest) acc = .error (.invalidKey (tokenKey p)) by
          rw [parseOverridesGo_cons, if_pos hc, hpk]] at h
        exact absurd h (by simp)
    · rw [show parseOverridesGo (p :: rest) acc = .error (.malformed p) by
        rw [parseOverridesGo_cons, if_neg hc]] at h
      exact absurd h (by simp)

/-! ## Unfolding helper for `apply_overrides` -/

theorem apply_overrides_eq (frames : List Frame) (ov : Frame) (t : Value)
    (hget : dictGet? ov "Frame" = some t) (hfalsy : pyFalsy t = false) :
    apply_overrides frames ov =
      match applyLoop ov t frames with
      | some updated => (none, updated)
      | none => (some (.frameNotFound t), frames) := by
  unfold apply_overrides
  rw [hget]
  simp [hfalsy]

/-! ## Claim C2 -/

/-- C2 (amended): `Parse` consumes lines after the header in fixed-size
groups of exactly 7, a group being consumed only if at least 7 lines remain
(the frame count is the post-header line count divided by 7), and a trailing
group of fewer than 7 non-empty lines is discarded without error.  For an
input consisting of a header, one full 7-line record and 8 further non-empty
lines, 14 lines are consumed (forming a second frame) and 1 line is
dropped. -/
theorem get_frames_seven_line_groups :
    (∀ raw : String, ((get_frames raw).1).length = ((stripLines raw).length - 1) / 7) ∧
    (∀ ls extra : List String, 7 ∣ ls.length → extra.length < 7 →
      chunkFrames (ls ++ extra) = chunkFrames ls) ∧
    (stripLines twoRecordInput).length = 16 ∧
    ((get_frames twoRecordInput).1).length = 2 := by
  refine ⟨?_, chunkFrames_append_of_dvd, by decide, by decide⟩
  intro raw
  cases hL : stripLines raw with
  | nil => simp [get_frames, hL]
  | cons header rest => simp [get_frames, hL, chunkFrames_length]

/-- Witness for C2's theorem at a concrete input: a complete 7-line group
followed by a 1-line tail chunks the same as the group alone. -/
theorem get_frames_seven_line_groups_witness :
    chunkFrames (["a", "b", "c", "d", "e", "f", "g"] ++ ["x"]) =
      chunkFrames ["a", "b", "c", "d", "e", "f", "g"] :=
  get_frames_seven_line_groups.2.1 ["a", "b", "c", "d", "e", "f", "g"] ["x"]
    (by decide) (by decide)

/-- Counterexample to C2 as stated: with a header, one full record and 8
further non-empty lines (16 stripped lines in all), the parser consumes a
second full 7-line group and produces a second frame, rather than consuming
only 7 lines and producing no second frame. -/
theorem get_frames_eight_extra_lines_counterexample :
    (stripLines twoRecordInput).length = 16 ∧
    (get_frames twoRecordInput).1 =
      [[("Frame", .text "A"), ("X", .int 1), ("Y", .int 2), ("W", .int 10),
        ("H", .int 20), ("Anchor", .text "TL"), ("FrameLevel", .int 0)],
       [("Frame", .text "B"), ("X", .int 1), ("Y", .int 2), ("W", .int 10),
        ("H", .int 20), ("Anchor", .text "TL"), ("FrameLevel", .int 1)]] := by
  decide

/-! ## Claim C5 -/

/-- C5: `auto_cast` is a total deterministic function (it is a Lean
function) that tries an integer parse, then a real parse, and falls back to
the trimmed text; on the spec's inputs: `"42"` is Integer 42, `"3.14"` is
Real 3.14 (the canonical scaled decimal `(314, 2)`), `" hello "` is Text
`"hello"`, `""` is Text `""`, `"007"` is Integer 7, and `"1.0"` is Real 1.0
(the scaled decimal `(1, 0)`), not Integer. -/
theorem auto_cast_spec :
    auto_cast "42" = Value.int 42 ∧
    auto_cast "3.14" = Value.real 314 2 ∧
    auto_cast " hello " = Value.text "hello" ∧
    auto_cast "" = Value.text "" ∧
    auto_cast "007" = Value.int 7 ∧
    auto_cast "1.0" = Value.real 1 0 := by
  decide

/-! ## Claim C4 -/

/-- C4 (amended): `apply_overrides` reports the missing-identity error if
and only if the overrides mapping has no `"Frame"` key or its `"Frame"`
value is Python-falsy: the empty Text, Integer 0, or Real 0.0 (the code
tests `not target_name`, so numeric zero is treated like an absent name). -/
theorem apply_overrides_missing_identity_iff (frames : List Frame) (ov : Frame) :
    (apply_overrides frames ov).1 = some AppError.missingIdentity ↔
      dictGet? ov "Frame" = none ∨
        ∃ t, dictGet? ov "Frame" = some t ∧ pyFalsy t = true := by
  cases hget : dictGet? ov "Frame" with
  | none =>
    unfold apply_overrides
    rw [hget]
    simp
  | some t =>
    unfold apply_overrides
    rw [hget]
    cases hfalsy : pyFalsy t with
    | true => simp [hfalsy]
    | false =>
      cases hloop : applyLoop ov t frames with
      | none => simp [hloop, hfalsy]
      | some updated => simp [hloop, hfalsy]

/-- Counterexample to C4 as stated: built from the token `Frame=0`, the
override carries a present, non-empty `"Frame"` value (Integer 0), yet
`apply_overrides` still fails with the missing-identity error. -/
theorem apply_overrides_missing_identity_counterexample :
    parse_overrides ["Frame=0"] = .ok [("Frame", Value.int 0)] ∧
    dictGet? [("Frame", Value.int 0)] "Frame" = some (Value.int 0) ∧
    Value.int 0 ≠ Value.text "" ∧
    (apply_overrides [[("Frame", Value.int 0)]] [("Frame", Value.int 0)]).1 =
      some AppError.missingIdentity :=
  ⟨by rfl, by decide, by decide, by decide⟩

/-! ## Claim C3 -/

/-- C3 (amended): `apply_overrides` scans frames in order and edits the
first whose `"Frame"` value equals the override's `"Frame"` value under
Python value equality; a Text value never equals a numeric value, but an
Integer and a Real of the same numeric value do match (Python's cross-type
numeric equality, e.g. `1 == 1.0`); if no frame matches, it fails with the
frame-not-found error. -/
theorem apply_overrides_lookup_semantics :
    (∀ (s : String) (n : ℤ),
      pyEq (.text s) (.int n) = false ∧ pyEq (.int n) (.text s) = false) ∧
    (∀ (s : String) (m : ℤ) (k : ℕ),
      pyEq (.text s) (.real m k) = false ∧ pyEq (.real m k) (.text s) = false) ∧
    (∀ n : ℤ, pyEq (.int n) (.real n 0) = true) ∧
    (∀ (frames : List Frame) (ov : Frame) (t : Value),
      dictGet? ov "Frame" = some t → pyFalsy t = false →
      ((∀ f ∈ frames, frameMatches f t = false) →
        apply_overrides frames ov = (some (.frameNotFound t), frames)) ∧
      (∀ (pre post : List Frame) (f : Frame), frames = pre ++ f :: post →
        (∀ g ∈ pre, frameMatches g t = false) → frameMatches f t = true →
        apply_overrides frames ov = (none, pre ++ mergeFrame f ov :: post))) := by
  refine ⟨fun s n => ⟨rfl, rfl⟩, fun s m k => ⟨rfl, rfl⟩, fun n => by simp [pyEq], ?_⟩
  intro frames ov t hget hfalsy
  constructor
  · intro hnm
    rw [apply_overrides_eq frames ov t hget hfalsy, applyLoop_of_no_match ov t frames hnm]
  · intro pre post f hsplit hpre hf
    rw [apply_overrides_eq frames ov t hget hfalsy, hsplit,
      applyLoop_first_match ov t pre post f hpre hf]

/-- Witness for C3's theorem at a concrete input: with two frames both named
`"A"`, the first one in order is the one edited. -/
theorem apply_overrides_lookup_semantics_witness :
    apply_overrides ([] ++ [("Frame", Value.text "A")] ::
        [[("Frame", Value.text "A"), ("X", Value.int 5)]])
        [("Frame", Value.text "A"), ("Y", Value.int 7)] =
      (none, [] ++ mergeFrame [("Frame", Value.text "A")]
          [("Frame", Value.text "A"), ("Y", Value.int 7)] ::
        [[("Frame", Value.text "A"), ("X", Value.int 5)]]) :=
  ((apply_overrides_lookup_semantics.2.2.2 _ _ (Value.text "A") (by decide) (by decide)).2
    [] [[("Frame", Value.text "A"), ("X", Value.int 5)]] [("Frame", Value.text "A")]
    rfl (by simp) (by decide))

/-- Counterexample to C3 as stated: the file value Real 1.0 and the override
value Integer 1 are different Value variants, yet the lookup matches (no
frame-not-found error), because Python's `==` equates `1` and `1.0`. -/
theorem apply_overrides_int_real_match_counterexample :
    Value.real 1 0 ≠ Value.int 1 ∧
    apply_overrides [[("Frame", Value.real 1 0)]] [("Frame", Value.int 1)] =
      (none, [[("Frame", Value.real 1 0)]]) := by
  decide

/-! ## Claim C8 -/

/-- C8: when the override's `"Frame"` value (present and not falsy) matches
no frame in the document, `apply_overrides` fails with the frame-not-found
error and returns the frame list completely unmodified. -/
theorem apply_overrides_frame_not_found (frames : List Frame) (ov : Frame) (t : Value)
    (hget : dictGet? ov "Frame" = some t) (hfalsy : pyFalsy t = false)
    (hnm : ∀ f ∈ frames, frameMatches f t = false) :
    apply_overrides frames ov = (some (.frameNotFound t), frames) := by
  rw [apply_overrides_eq frames ov t hget hfalsy, applyLoop_of_no_match ov t frames hnm]

/-- Witness for C8's theorem at a concrete input: override `{Frame:"B"}`
against a document holding only frame `"A"`. -/
theorem apply_overrides_frame_not_found_witness :
    apply_overrides [[("Frame", Value.text "A"), ("X", Value.int 1)]]
        [("Frame", Value.text "B")] =
      (some (.frameNotFound (Value.text "B")),
        [[("Frame", Value.text "A"), ("X", Value.int 1)]]) :=
  apply_overrides_frame_not_found [[("Frame", Value.text "A"), ("X", Value.int 1)]]
    [("Frame", Value.text "B")] (Value.text "B") (by decide) (by decide) (by decide)

/-! ## Claim C6 -/

/-- C6: on a document containing a frame whose `"Frame"` value matches
`"A"`, the override `{Frame:"A", X:99}` updates exactly the first such
frame, and on it sets exactly the key `"X"` to Integer 99 (`dictSet`
touches no other key, so the `"Frame"` identity and every other field are
unchanged); every preceding and following frame is returned unchanged, and
the header is not an input of `apply_overrides` at all. -/
theorem apply_overrides_set_one_field (pre post : List Frame) (f : Frame)
    (hpre : ∀ g ∈ pre, frameMatches g (Value.text "A") = false)
    (hf : frameMatches f (Value.text "A") = true) :
    apply_overrides (pre ++ f :: post) [("Frame", Value.text "A"), ("X", Value.int 99)] =
      (none, pre ++ dictSet f "X" (Value.int 99) :: post) := by
  rw [apply_overrides_eq _ _ (Value.text "A") (by decide) (by decide),
    applyLoop_first_match _ (Value.text "A") pre post f hpre hf]
  show (none, pre ++ mergeFrame f [("Frame", Value.text "A"), ("X", Value.int 99)] :: post) = _
  rw [show mergeFrame f [("Frame", Value.text "A"), ("X", Value.int 99)] =
    dictSet f "X" (Value.int 99) from by unfold mergeFrame; simp]

/-- Witness for C6's theorem at a concrete input. -/
theorem apply_overrides_set_one_field_witness :
    apply_overrides ([[("Frame", Value.text "B")]] ++
        [("Frame", Value.text "A"), ("X", Value.int 1), ("Y", Value.int 2)] :: [])
        [("Frame", Value.text "A"), ("X", Value.int 99)] =
      (none, [[("Frame", Value.text "B")]] ++
        dictSet [("Frame", Value.text "A"), ("X", Value.int 1), ("Y", Value.int 2)]
          "X" (Value.int 99) :: []) :=
  apply_overrides_set_one_field [[("Frame", Value.text "B")]] []
    [("Frame", Value.text "A"), ("X", Value.int 1), ("Y", Value.int 2)]
    (by decide) (by decide)

/-! ## Claim C9 -/

/-- C9: the merge is idempotent: whenever `apply_overrides` succeeds
(returning no error and the updated frame list), applying the same override
mapping to the result changes nothing further.  The override is a Python
dict, so its keys are duplicate-free. -/
theorem apply_overrides_idempotent (frames frames1 : List Frame) (ov : Frame)
    (hnd : (dictKeys ov).Nodup)
    (h : apply_overrides frames ov = (none, frames1)) :
    apply_overrides frames1 ov = (none, frames1) := by
  cases hget : dictGet? ov "Frame" with
  | none =>
    rw [show apply_overrides frames ov = (some .missingIdentity, frames) by
      unfold apply_overrides; rw [hget]] at h
    exact absurd (congrArg Prod.fst h) (by simp)
  | some t =>
    cases hfalsy : pyFalsy t with
    | true =>
      rw [show apply_overrides frames ov = (some .missingIdentity, frames) by
        unfold apply_overrides; rw [hget]; simp [hfalsy]] at h
      exact absurd (congrArg Prod.fst h) (by simp)
    | false =>
      rw [apply_overrides_eq frames ov t hget hfalsy] at h
      cases hloop : applyLoop ov t frames with
      | none =>
        rw [hloop] at h
        exact absurd (congrArg Prod.fst h) (by simp)
      | some updated =>
        rw [hloop] at h
        have hfr : frames1 = updated := by
          have h2 := h.symm
          simp only [Prod.mk.injEq] at h2
          exact h2.2
        obtain ⟨pre, f, post, hsplit, hpre, hf, hu⟩ :=
          applyLoop_eq_some ov t frames updated hloop
        have hmatch : frameMatches (mergeFrame f ov) t = true := by
          unfold frameMatches at hf ⊢
          rw [mergeFrame_get_Frame]
          exact hf
        have hloop1 : applyLoop ov t frames1 = some frames1 := by
          rw [hfr, hu, applyLoop_first_match ov t pre post (mergeFrame f ov) hpre hmatch,
            mergeFrame_twice ov hnd f]
        rw [apply_overrides_eq frames1 ov t hget hfalsy, hloop1]

/-- Witness for C9's theorem at a concrete input: applying
`{Frame:"A", X:99}` a second time reproduces the once-updated document. -/
theorem apply_overrides_idempotent_witness :
    apply_overrides [[("Frame", Value.text "A"), ("X", Value.int 99)]]
        [("Frame", Value.text "A"), ("X", Value.int 99)] =
      (none, [[("Frame", Value.text "A"), ("X", Value.int 99)]]) :=
  apply_overrides_idempotent [[("Frame", Value.text "A"), ("X", Value.int 1)]]
    [[("Frame", Value.text "A"), ("X", Value.int 99)]]
    [("Frame", Value.text "A"), ("X", Value.int 99)] (by decide) (by decide)

/-! ## Claim C7 -/

/-- C7: `parse_overrides` is all-or-nothing: if any token lacks `=` or has
a key outside the case-insensitive allow-list, the whole step fails with an
error naming the offending token (malformed) or its stripped key (invalid
key), and no mapping is produced (the result is an error, which carries no
mapping); otherwise every key of the resulting mapping is one of the
canonical-casing allow-list members, and in particular `"anchor=TL"`
produces the field key `"Anchor"`. -/
theorem parse_overrides_all_or_nothing :
    (∀ ts : List String, (∃ t ∈ ts, ¬ goodToken t) →
      ∃ t ∈ ts, ¬ goodToken t ∧
        (parse_overrides ts = .error (.malformed t) ∨
         parse_overrides ts = .error (.invalidKey (tokenKey t)))) ∧
    (∀ (ts : List String) (m : Frame), parse_overrides ts = .ok m →
      ∀ kv ∈ m, kv.1 ∈ VALID_KEYS) ∧
    parse_overrides ["anchor=TL"] = .ok [("Anchor", Value.text "TL")] ∧
    parse_overrides ["frame=A", "z=1"] = .error (.invalidKey "z") := by
  refine ⟨fun ts h => parseOverridesGo_error ts [] h,
    fun ts m h => parseOverridesGo_ok_keys ts [] m
      (fun kv hkv => absurd hkv (List.not_mem_nil kv)) h, by rfl, by rfl⟩

/-- Witness for C7's theorem at a concrete input: the batch
`["frame=A", "z=1"]` contains a bad token, so the whole parse fails. -/
theorem parse_overrides_all_or_nothing_witness :
    ∃ t ∈ ["frame=A", "z=1"], ¬ goodToken t ∧
      (parse_overrides ["frame=A", "z=1"] = .error (.malformed t) ∨
       parse_overrides ["frame=A", "z=1"] = .error (.invalidKey (tokenKey t))) :=
  parse_overrides_all_or_nothing.1 ["frame=A", "z=1"] ⟨"z=1", by decide, by decide⟩

/-! ## Claim C10 -/

/-- C10: a line containing `":"` whose key part strips to the empty string
contributes no field (it is skipped exactly like a colon-less line, which
also contributes nothing), and consequently every key stored in a parsed
frame is a non-empty string that equals its own strip. -/
theorem parse_skips_empty_keys :
    (∀ (fd : Frame) (line : String), line.data.contains ':' = true →
      pyStrip ⟨line.data.takeWhile fun c => !(c == ':')⟩ = "" →
      frameStep fd line = fd) ∧
    (∀ (fd : Frame) (line : String), line.data.contains ':' = false →
      frameStep fd line = fd) ∧
    (∀ raw : String, ∀ f ∈ (get_frames raw).1, ∀ kv ∈ f,
      kv.1 ≠ "" ∧ pyStrip kv.1 = kv.1) := by
  refine ⟨?_, ?_, ?_⟩
  · intro fd line hc hkey
    have hp : parse_kv_line line =
        some (pyStrip ⟨line.data.takeWhile fun c => !(c == ':')⟩,
          auto_cast (pyStrip ⟨(line.data.dropWhile fun c => !(c == ':')).tail⟩)) := by
      unfold parse_kv_line
      rw [if_pos hc]
      rfl
    unfold frameStep
    rw [hp, hkey]
    simp
  · intro fd line hc
    have hp : parse_kv_line line = none := by
      unfold parse_kv_line
      rw [if_neg (by simpa using hc)]
    unfold frameStep
    rw [hp]
  · intro raw f hf kv hkv
    cases hL : stripLines raw with
    | nil =>
      have hf1 : f ∈ ([] : List Frame) := by
        unfold get_frames at hf
        rw [hL] at hf
        exact hf
      exact absurd hf1 (List.not_mem_nil f)
    | cons header rest =>
      have hf1 : f ∈ chunkFrames rest := by
        unfold get_frames at hf
        rw [hL] at hf
        exact hf
      obtain ⟨b, hb⟩ := mem_chunkFrames rest f hf1
      exact buildFrame_keys b kv (hb ▸ hkv)

/-- Witness for C10's theorem at a concrete input: the key `"X"` of the
frame parsed from `sparseRecordInput` is non-empty and trimmed. -/
theorem parse_skips_empty_keys_witness :
    ("X" : String) ≠ "" ∧ pyStrip "X" = "X" :=
  parse_skips_empty_keys.2.2 sparseRecordInput
    [("Frame", Value.text "A"), ("X", Value.int 1)] (by decide)
    ("X", Value.int 1) (by decide)

/-! ## Digit lemmas -/

theorem digitVal_digitChar10 (d : ℕ) (hd : d < 10) : digitVal (digitChar10 d) = d := by
  interval_cases d <;> decide

theorem isDigitCh_digitChar10 (d : ℕ) (hd : d < 10) : isDigitCh (digitChar10 d) = true := by
  interval_cases d <;> decide

theorem digitsToNat_singleton (c : Char) : digitsToNat [c] = digitVal c := by
  unfold digitsToNat
  simp

theorem digitsToNat_foldl (cs : List Char) (acc : ℕ) :
    cs.foldl (fun a c => 10 * a + digitVal c) acc =
      acc * 10 ^ cs.length + digitsToNat cs := by
  induction cs generalizing acc with
  | nil => simp [digitsToNat]
  | cons c rest ih =>
    show rest.foldl _ (10 * acc + digitVal c) = _
    rw [ih (10 * acc + digitVal c)]
    have hd : digitsToNat (c :: rest) = (digitVal c) * 10 ^ rest.length + digitsToNat rest := by
      show rest.foldl _ (10 * 0 + digitVal c) = _
      rw [ih (10 * 0 + digitVal c)]
      ring
    rw [hd]
    simp [List.length_cons]
    ring

theorem digitsToNat_append (a b : List Char) :
    digitsToNat (a ++ b) = digitsToNat a * 10 ^ b.length + digitsToNat b := by
  unfold digitsToNat
  rw [List.foldl_append, digitsToNat_foldl b (List.foldl _ 0 a)]
  rfl

theorem digitsToNat_replicate_zero (j : ℕ) (b : List Char) :
    digitsToNat (List.replicate j '0' ++ b) = digitsToNat b := by
  rw [digitsToNat_append]
  have h0 : digitsToNat (List.replicate j '0') = 0 := by
    induction j with
    | zero => rfl
    | succ j ih =>
      rw [List.replicate_succ]
      show List.foldl _ (10 * 0 + digitVal '0') (List.replicate j '0') = 0
      rw [digitsToNat_foldl]
      simp [digitVal, ih]
  rw [h0]
  simp

theorem natToDigitsGo_spec (fuel : ℕ) :
    ∀ n : ℕ, n ≤ fuel →
      digitsToNat (natToDigitsGo fuel n) = n ∧
      (∀ c ∈ natToDigitsGo fuel n, isDigitCh c = true) ∧
      natToDigitsGo fuel n ≠ [] := by
  induction fuel with
  | zero =>
    intro n hn
    have h0 : n = 0 := Nat.le_zero.mp hn
    subst h0
    refine ⟨by decide, ?_, by decide⟩
    intro c hc
    have : c = '0' := by simpa [natToDigitsGo, digitChar10] using hc
    simp [this]
    decide
  | succ fuel ih =>
    intro n hn
    by_cases h10 : n < 10
    · refine ⟨?_, ?_, ?_⟩
      · have hunf : natToDigitsGo (fuel + 1) n = [digitChar10 n] := by
          simp [natToDigitsGo, h10]
        rw [hunf, digitsToNat_singleton, digitVal_digitChar10 n h10]
      · intro c hc
        have hc1 : c = digitChar10 n := by
          simpa [natToDigitsGo, h10] using hc
        rw [hc1]
        exact isDigitCh_digitChar10 n h10
      · simp [natToDigitsGo, h10]
    · have hrec : n / 10 ≤ fuel := by omega
      obtain ⟨hval, hdig, hne⟩ := ih (n / 10) hrec
      have hunf : natToDigitsGo (fuel + 1) n =
          natToDigitsGo fuel (n / 10) ++ [digitChar10 (n % 10)] := by
        simp [natToDigitsGo, h10]
      refine ⟨?_, ?_, ?_⟩
      · rw [hunf, digitsToNat_append, hval]
        have hmod : digitsToNat [digitChar10 (n % 10)] = n % 10 := by
          rw [digitsToNat_singleton, digitVal_digitChar10 (n % 10) (Nat.mod_lt n (by omega))]
        rw [hmod]
        simp
        omega
      · intro c hc
        rw [hunf] at hc
        rcases List.mem_append.mp hc with hc1 | hc1
        · exact hdig c hc1
        · have : c = digitChar10 (n % 10) := by simpa using hc1
          rw [this]
          exact isDigitCh_digitChar10 (n % 10) (Nat.mod_lt n (by omega))
      · rw [hunf]
        simp

theorem natToDigits_val (n : ℕ) : digitsToNat (natToDigits n) = n :=
  (natToDigitsGo_spec n n le_rfl).1

theorem natToDigits_digits (n : ℕ) : ∀ c ∈ natToDigits n, isDigitCh c = true :=
  (natToDigitsGo_spec n n le_rfl).2.1

theorem natToDigits_ne_nil (n : ℕ) : natToDigits n ≠ [] :=
  (natToDigitsGo_spec n n le_rfl).2.2

/-! ## Character-class lemmas -/

theorem isWS_of_isDigitCh (c : Char) (h : isDigitCh c = true) : isWS c = false := by
  by_cases hws : isWS c = true
  · simp only [isWS, Bool.or_eq_true, beq_iff_eq] at hws
    rcases hws with ((((h1 | h1) | h1) | h1) | h1) | h1 <;>
      (subst h1; exact absurd h (by decide))
  · exact Bool.of_not_eq_true hws

theorem isDigitCh_ne (c : Char) (h : isDigitCh c = true) :
    c ≠ '+' ∧ c ≠ '-' ∧ c ≠ 'e' ∧ c ≠ 'E' ∧ c ≠ '.' ∧ c ≠ ':' ∧ c ≠ '\n' := by
  refine ⟨?_, ?_, ?_, ?_, ?_, ?_, ?_⟩ <;>
    (intro he; subst he; exact absurd h (by decide))

theorem readSign_digit_head (c : Char) (r : List Char) (h : isDigitCh c = true) :
    readSign (c :: r) = (false, c :: r) := by
  show (if c = '+' then ((false : Bool), r)
    else if c = '-' then (true, r) else (false, c :: r)) = (false, c :: r)
  rw [if_neg (isDigitCh_ne c h).1, if_neg (isDigitCh_ne c h).2.1]

theorem stripChars_eq_self (l : List Char) (h : ∀ c ∈ l, isWS c = false) :
    stripChars l = l := by
  have h1 : l.dropWhile isWS = l := by
    rw [List.dropWhile_eq_self_iff]
    intro hl
    rw [h _ (List.get_mem l 0 hl)]
    simp
  rw [stripChars_eq_rdrop, h1, List.rdropWhile_eq_self_iff]
  intro hl
  rw [h _ (List.getLast_mem hl)]
  simp

/-! ## Integer rendering parses back -/

theorem intRender_nonws (n : ℤ) : ∀ c ∈ intRender n, isWS c = false := by
  intro c hc
  unfold intRender at hc
  rcases List.mem_append.mp hc with hc1 | hc1
  · by_cases hn : n < 0
    · rw [if_pos hn] at hc1
      have hc2 : c = '-' := by simpa using hc1
      rw [hc2]
      decide
    · rw [if_neg hn] at hc1
      exact absurd hc1 (List.not_mem_nil c)
  · exact isWS_of_isDigitCh c (natToDigits_digits n.natAbs c hc1)

theorem intParse?_intRender (n : ℤ) : intParse? ⟨intRender n⟩ = some n := by
  unfold intParse?
  rw [show (⟨intRender n⟩ : String).data = intRender n from rfl,
    stripChars_eq_self _ (intRender_nonws n)]
  have hall : (natToDigits n.natAbs).all isDigitCh = true :=
    List.all_eq_true.mpr (natToDigits_digits n.natAbs)
  by_cases hn : n < 0
  · have hr : intRender n = '-' :: natToDigits n.natAbs := by
      unfold intRender
      rw [if_pos hn]
      rfl
    rw [hr]
    have hsign : readSign ('-' :: natToDigits n.natAbs) =
        (true, natToDigits n.natAbs) := rfl
    simp only [hsign]
    rw [if_pos ⟨natToDigits_ne_nil n.natAbs, hall⟩, natToDigits_val]
    show some ((-1 : ℤ) * (n.natAbs : ℤ)) = some n
    congr 1
    omega
  · have hr : intRender n = natToDigits n.natAbs := by
      unfold intRender
      rw [if_neg hn]
      exact List.nil_append _
    rw [hr]
    cases hshape : natToDigits n.natAbs with
    | nil => exact absurd hshape (natToDigits_ne_nil n.natAbs)
    | cons c cs =>
      have hcd : isDigitCh c = true := by
        refine natToDigits_digits n.natAbs c ?_
        rw [hshape]
        exact List.mem_cons_self _ _
      have hall2 : (c :: cs).all isDigitCh = true := by
        rw [← hshape]
        exact hall
      have hval : digitsToNat (c :: cs) = n.natAbs := by
        rw [← hshape]
        exact natToDigits_val _
      simp only [readSign_digit_head c cs hcd]
      rw [if_pos ⟨List.cons_ne_nil c cs, hall2⟩, hval]
      show some ((1 : ℤ) * (n.natAbs : ℤ)) = some n
      congr 1
      omega

/-! ## Real rendering parses back -/

theorem notEE_of_digit (c : Char) (h : isDigitCh c = true) :
    (!(c == 'e' || c == 'E')) = true := by
  obtain ⟨-, -, he, hE, -, -, -⟩ := isDigitCh_ne c h
  simp [he, hE]

theorem notDot_of_digit (c : Char) (h : isDigitCh c = true) :
    (!(c == '.')) = true := by
  obtain ⟨-, -, -, -, hdot, -, -⟩ := isDigitCh_ne c h
  simp [hdot]

theorem canonDec_zero (m : ℤ) : canonDec m 0 = (m, 0) := rfl

theorem canonDec_succ (m : ℤ) (k : ℕ) :
    canonDec m (k + 1) = if m % 10 = 0 then canonDec (m / 10) k else (m, k + 1) := rfl

theorem canonDec_canonical (m : ℤ) (k : ℕ) :
    (canonDec m k).2 = 0 ∨ (canonDec m k).1 % 10 ≠ 0 := by
  induction k generalizing m with
  | zero => exact Or.inl rfl
  | succ k ih =>
    by_cases h : m % 10 = 0
    · rw [canonDec_succ, if_pos h]
      exact ih (m / 10)
    · rw [canonDec_succ, if_neg h]
      exact Or.inr h

theorem decParse?_plain (neg : Bool) (I F : List Char)
    (hI : ∀ c ∈ I, isDigitCh c = true) (hF : ∀ c ∈ F, isDigitCh c = true)
    (hIne : I ≠ []) :
    decParse? ⟨(if neg then ['-'] else []) ++ I ++ '.' :: F⟩ =
      some (canonDec ((if neg then -1 else 1) * (digitsToNat (I ++ F) : ℤ)) F.length) := by
  have hbody : ∀ c ∈ I ++ '.' :: F, isDigitCh c = true ∨ c = '.' := by
    intro c hc
    rcases List.mem_append.mp hc with h1 | h1
    · exact Or.inl (hI c h1)
    · rcases List.mem_cons.mp h1 with rfl | h2
      · exact Or.inr rfl
      · exact Or.inl (hF c h2)
  have hstrip : stripChars ((if neg then ['-'] else []) ++ I ++ '.' :: F) =
      (if neg then ['-'] else []) ++ I ++ '.' :: F := by
    refine stripChars_eq_self _ ?_
    intro c hc
    rcases List.mem_append.mp hc with h1 | h1
    · rcases List.mem_append.mp h1 with h2 | h2
      · cases neg with
        | true =>
          have hc2 : c = '-' := by simpa using h2
          rw [hc2]
          decide
        | false => exact absurd h2 (List.not_mem_nil c)
      · exact isWS_of_isDigitCh c (hI c h2)
    · rcases List.mem_cons.mp h1 with rfl | h2
      · decide
      · exact isWS_of_isDigitCh c (hF c h2)
  have hsign : readSign ((if neg then ['-'] else []) ++ I ++ '.' :: F) =
      (neg, I ++ '.' :: F) := by
    cases neg with
    | true => rfl
    | false =>
      show readSign (I ++ '.' :: F) = (false, I ++ '.' :: F)
      cases hIshape : I with
      | nil => exact absurd hIshape hIne
      | cons c cs =>
        have hcd : isDigitCh c = true := by
          refine hI c ?_
          rw [hIshape]
          exact List.mem_cons_self _ _
        show readSign (c :: (cs ++ '.' :: F)) = (false, c :: (cs ++ '.' :: F))
        exact readSign_digit_head c (cs ++ '.' :: F) hcd
  have hmant : (I ++ '.' :: F).takeWhile (fun c => !(c == 'e' || c == 'E')) =
      I ++ '.' :: F := by
    refine List.takeWhile_eq_self_iff.mpr ?_
    intro c hc
    rcases hbody c hc with h2 | h2
    · exact notEE_of_digit c h2
    · rw [h2]
      decide
  have hexp : (I ++ '.' :: F).dropWhile (fun c => !(c == 'e' || c == 'E')) = [] := by
    refine List.dropWhile_eq_nil_iff.mpr ?_
    intro c hc
    rcases hbody c hc with h2 | h2
    · exact notEE_of_digit c h2
    · rw [h2]
      decide
  have hip : (I ++ '.' :: F).takeWhile (fun c => !(c == '.')) = I := by
    rw [List.takeWhile_append_of_pos (fun a ha => notDot_of_digit a (hI a ha)),
      List.takeWhile_cons_of_neg (by decide)]
    simp
  have hfp : (I ++ '.' :: F).dropWhile (fun c => !(c == '.')) = '.' :: F := by
    rw [List.dropWhile_append_of_pos (fun a ha => notDot_of_digit a (hI a ha)),
      List.dropWhile_cons_of_neg (by decide)]
  unfold decParse?
  rw [show (⟨(if neg then ['-'] else []) ++ I ++ '.' :: F⟩ : String).data =
    (if neg then ['-'] else []) ++ I ++ '.' :: F from rfl, hstrip]
  simp only [hsign, hmant, hexp, hip, hfp, List.tail_cons]
  rw [if_pos ⟨List.all_eq_true.mpr hI, List.all_eq_true.mpr hF, by simp [hIne]⟩]
  norm_num

theorem paddedDigits_digits (m : ℤ) (k : ℕ) :
    ∀ c ∈ paddedDigits m k, isDigitCh c = true := by
  intro c hc
  rcases List.mem_append.mp hc with h1 | h1
  · have : c = '0' := List.eq_of_mem_replicate h1
    rw [this]
    decide
  · exact natToDigits_digits m.natAbs c h1

theorem paddedDigits_len (m : ℤ) (k : ℕ) : k + 1 ≤ (paddedDigits m k).length := by
  unfold paddedDigits
  rw [List.length_append, List.length_replicate]
  omega

theorem paddedDigits_val (m : ℤ) (k : ℕ) :
    digitsToNat (paddedDigits m k) = m.natAbs := by
  unfold paddedDigits
  rw [digitsToNat_replicate_zero, natToDigits_val]

theorem intParse?_plain_none (neg : Bool) (I F : List Char)
    (hI : ∀ c ∈ I, isDigitCh c = true) (hF : ∀ c ∈ F, isDigitCh c = true)
    (hIne : I ≠ []) :
    intParse? ⟨(if neg then ['-'] else []) ++ I ++ '.' :: F⟩ = none := by
  have hstrip : stripChars ((if neg then ['-'] else []) ++ I ++ '.' :: F) =
      (if neg then ['-'] else []) ++ I ++ '.' :: F := by
    refine stripChars_eq_self _ ?_
    intro c hc
    rcases List.mem_append.mp hc with h1 | h1
    · rcases List.mem_append.mp h1 with h2 | h2
      · cases neg with
        | true =>
          have hc2 : c = '-' := by simpa using h2
          rw [hc2]
          decide
        | false => exact absurd h2 (List.not_mem_nil c)
      · exact isWS_of_isDigitCh c (hI c h2)
    · rcases List.mem_cons.mp h1 with rfl | h2
      · decide
      · exact isWS_of_isDigitCh c (hF c h2)
  have hsign : readSign ((if neg then ['-'] else []) ++ I ++ '.' :: F) =
      (neg, I ++ '.' :: F) := by
    cases neg with
    | true => rfl
    | false =>
      show readSign (I ++ '.' :: F) = (false, I ++ '.' :: F)
      cases hIshape : I with
      | nil => exact absurd hIshape hIne
      | cons c cs =>
        have hcd : isDigitCh c = true := by
          refine hI c ?_
          rw [hIshape]
          exact List.mem_cons_self _ _
        show readSign (c :: (cs ++ '.' :: F)) = (false, c :: (cs ++ '.' :: F))
        exact readSign_digit_head c (cs ++ '.' :: F) hcd
  unfold intParse?
  rw [show (⟨(if neg then ['-'] else []) ++ I ++ '.' :: F⟩ : String).data =
    (if neg then ['-'] else []) ++ I ++ '.' :: F from rfl, hstrip]
  simp only [hsign]
  rw [if_neg ?_]
  rintro ⟨-, hall⟩
  have hdot : isDigitCh '.' = true :=
    List.all_eq_true.mp hall '.' (by simp)
  exact absurd hdot (by decide)

theorem canonDec_case_zero (m s : ℤ) (hs : s * (m.natAbs : ℤ) = m) :
    canonDec (s * ((m.natAbs * 10 : ℕ) : ℤ)) 1 = (m, 0) := by
  have h1 : s * ((m.natAbs * 10 : ℕ) : ℤ) = m * 10 := by
    rw [Nat.cast_mul, Nat.cast_ofNat, ← mul_assoc, hs]
  rw [h1, canonDec_succ, if_pos (Int.mul_emod_left m 10),
    Int.mul_ediv_cancel m (by decide), canonDec_zero]

theorem canonDec_case_pos (m s : ℤ) (k : ℕ) (hk : k ≠ 0) (hm10 : m % 10 ≠ 0)
    (hs : s * (m.natAbs : ℤ) = m) :
    canonDec (s * (m.natAbs : ℤ)) k = (m, k) := by
  obtain ⟨k1, rfl⟩ := Nat.exists_eq_succ_of_ne_zero hk
  rw [hs, canonDec_succ, if_neg hm10]

theorem decParse?_realRender (m : ℤ) (k : ℕ) (hcanon : k = 0 ∨ m % 10 ≠ 0) :
    decParse? ⟨realRender m k⟩ = some (m, k) := by
  have hIdig : ∀ c ∈ (paddedDigits m k).take ((paddedDigits m k).length - k),
      isDigitCh c = true :=
    fun c hc => paddedDigits_digits m k c (List.mem_of_mem_take hc)
  have hFdig : ∀ c ∈ (if k = 0 then ['0']
      else (paddedDigits m k).drop ((paddedDigits m k).length - k)), isDigitCh c = true := by
    intro c hc
    by_cases hk : k = 0
    · rw [if_pos hk] at hc
      have : c = '0' := by simpa using hc
      rw [this]
      decide
    · rw [if_neg hk] at hc
      exact paddedDigits_digits m k c (List.mem_of_mem_drop hc)
  have hIne : (paddedDigits m k).take ((paddedDigits m k).length - k) ≠ [] := by
    have hlen := paddedDigits_len m k
    intro hnil
    have hlen2 := congrArg List.length hnil
    rw [List.length_take] at hlen2
    simp at hlen2
    omega
  have hIF : digitsToNat ((paddedDigits m k).take ((paddedDigits m k).length - k) ++
      (if k = 0 then ['0'] else (paddedDigits m k).drop ((paddedDigits m k).length - k))) =
      if k = 0 then m.natAbs * 10 else m.natAbs := by
    by_cases hk : k = 0
    · rw [if_pos hk, if_pos hk, hk]
      rw [show (paddedDigits m 0).length - 0 = (paddedDigits m 0).length from rfl,
        List.take_length, digitsToNat_append, digitsToNat_singleton, paddedDigits_val]
      simp [digitVal]
    · rw [if_neg hk, if_neg hk, List.take_append_drop, paddedDigits_val]
  have hFl : (if k = 0 then ['0']
      else (paddedDigits m k).drop ((paddedDigits m k).length - k)).length =
      if k = 0 then 1 else k := by
    by_cases hk : k = 0
    · rw [if_pos hk, if_pos hk]
      rfl
    · rw [if_neg hk, if_neg hk, List.length_drop]
      have := paddedDigits_len m k
      omega
  by_cases hm : m < 0
  · have hr : realRender m k = (if (true : Bool) then ['-'] else []) ++
        (paddedDigits m k).take ((paddedDigits m k).length - k) ++ '.' ::
        (if k = 0 then ['0'] else (paddedDigits m k).drop ((paddedDigits m k).length - k)) := by
      unfold realRender
      rw [if_pos hm]
      rfl
    rw [hr, decParse?_plain true _ _ hIdig hFdig hIne, hIF, hFl]
    have hs : (-1 : ℤ) * (m.natAbs : ℤ) = m := by omega
    by_cases hk : k = 0
    · rw [if_pos hk, if_pos hk]
      subst hk
      exact congrArg some (canonDec_case_zero m (-1) hs)
    · rw [if_neg hk, if_neg hk]
      exact congrArg some
        (canonDec_case_pos m (-1) k hk (hcanon.resolve_left hk) hs)
  · have hr : realRender m k = (if (false : Bool) then ['-'] else []) ++
        (paddedDigits m k).take ((paddedDigits m k).length - k) ++ '.' ::
        (if k = 0 then ['0'] else (paddedDigits m k).drop ((paddedDigits m k).length - k)) := by
      unfold realRender
      rw [if_neg hm]
      rfl
    rw [hr, decParse?_plain false _ _ hIdig hFdig hIne, hIF, hFl]
    have hs : (1 : ℤ) * (m.natAbs : ℤ) = m := by omega
    by_cases hk : k = 0
    · rw [if_pos hk, if_pos hk]
      subst hk
      exact congrArg some (canonDec_case_zero m 1 hs)
    · rw [if_neg hk, if_neg hk]
      exact congrArg some
        (canonDec_case_pos m 1 k hk (hcanon.resolve_left hk) hs)

theorem intParse?_realRender (m : ℤ) (k : ℕ) :
    intParse? ⟨realRender m k⟩ = none := by
  have hIdig : ∀ c ∈ (paddedDigits m k).take ((paddedDigits m k).length - k),
      isDigitCh c = true :=
    fun c hc => paddedDigits_digits m k c (List.mem_of_mem_take hc)
  have hFdig : ∀ c ∈ (if k = 0 then ['0']
      else (paddedDigits m k).drop ((paddedDigits m k).length - k)), isDigitCh c = true := by
    intro c hc
    by_cases hk : k = 0
    · rw [if_pos hk] at hc
      have : c = '0' := by simpa using hc
      rw [this]
      decide
    · rw [if_neg hk] at hc
      exact paddedDigits_digits m k c (List.mem_of_mem_drop hc)
  have hIne : (paddedDigits m k).take ((paddedDigits m k).length - k) ≠ [] := by
    have hlen := paddedDigits_len m k
    intro hnil
    have hlen2 := congrArg List.length hnil
    rw [List.length_take] at hlen2
    simp at hlen2
    omega
  by_cases hm : m < 0
  · have hr : realRender m k = (if (true : Bool) then ['-'] else []) ++
        (paddedDigits m k).take ((paddedDigits m k).length - k) ++ '.' ::
        (if k = 0 then ['0'] else (paddedDigits m k).drop ((paddedDigits m k).length - k)) := by
      unfold realRender
      rw [if_pos hm]
      rfl
    rw [hr]
    exact intParse?_plain_none true _ _ hIdig hFdig hIne
  · have hr : realRender m k = (if (false : Bool) then ['-'] else []) ++
        (paddedDigits m k).take ((paddedDigits m k).length - k) ++ '.' ::
        (if k = 0 then ['0'] else (paddedDigits m k).drop ((paddedDigits m k).length - k)) := by
      unfold realRender
      rw [if_neg hm]
      rfl
    rw [hr]
    exact intParse?_plain_none false _ _ hIdig hFdig hIne

/-! ## Value-level round-trip lemmas -/

theorem decParse?_canonical (s : String) (m : ℤ) (k : ℕ)
    (h : decParse? s = some (m, k)) : k = 0 ∨ m % 10 ≠ 0 := by
  unfold decParse? at h
  simp only [] at h
  split at h
  · exact absurd h (by simp)
  · split at h
    · obtain ⟨m2, k2, hmk⟩ : ∃ a b, (m, k) = canonDec a b :=
        ⟨_, _, (Option.some.inj h).symm⟩
      have hc := canonDec_canonical m2 k2
      rw [← hmk] at hc
      exact hc
    · exact absurd h (by simp)

theorem intParse?_pyStrip (s : String) : intParse? (pyStrip s) = intParse? s := by
  unfold intParse?
  rw [show (pyStrip s).data = stripChars s.data from rfl, stripChars_idem]

theorem decParse?_pyStrip (s : String) : decParse? (pyStrip s) = decParse? s := by
  unfold decParse?
  rw [show (pyStrip s).data = stripChars s.data from rfl, stripChars_idem]

theorem auto_cast_wf (s : String) : ValueWf (auto_cast s) := by
  unfold auto_cast
  cases hint : intParse? s with
  | some n => exact True.intro
  | none =>
    cases hdec : decParse? s with
    | some mk =>
      obtain ⟨m, k⟩ := mk
      exact decParse?_canonical s m k hdec
    | none =>
      refine ⟨pyStrip_idem s, ?_, ?_⟩
      · rw [intParse?_pyStrip, hint]
      · rw [decParse?_pyStrip, hdec]

theorem auto_cast_renderValue (v : Value) (h : ValueWf v) :
    auto_cast (renderValue v) = v := by
  cases v with
  | int n =>
    unfold auto_cast renderValue
    rw [intParse?_intRender]
  | real m k =>
    unfold auto_cast renderValue
    rw [intParse?_realRender, decParse?_realRender m k h]
  | text s =>
    obtain ⟨hstrip, hint, hdec⟩ := h
    unfold auto_cast renderValue
    rw [hint, hdec, hstrip]

theorem stripChars_mem (l : List Char) (c : Char) (h : c ∈ stripChars l) : c ∈ l := by
  rw [stripChars_eq_rdrop] at h
  have h1 : c ∈ (l.dropWhile isWS) :=
    (List.rdropWhile_prefix _ _).subset h
  exact (List.dropWhile_sublist _).subset h1

theorem realRender_nonws (m : ℤ) (k : ℕ) : ∀ c ∈ realRender m k, isWS c = false := by
  intro c hc
  unfold realRender at hc
  simp only [] at hc
  rcases List.mem_append.mp hc with h1 | h1
  · rcases List.mem_append.mp h1 with h2 | h2
    · by_cases hm : m < 0
      · rw [if_pos hm] at h2
        have hc2 : c = '-' := by simpa using h2
        rw [hc2]
        decide
      · rw [if_neg hm] at h2
        exact absurd h2 (List.not_mem_nil c)
    · exact isWS_of_isDigitCh c (paddedDigits_digits m k c (List.mem_of_mem_take h2))
  · rcases List.mem_cons.mp h1 with rfl | h2
    · decide
    · by_cases hk : k = 0
      · rw [if_pos hk] at h2
        have hc2 : c = '0' := by simpa using h2
        rw [hc2]
        decide
      · rw [if_neg hk] at h2
        exact isWS_of_isDigitCh c (paddedDigits_digits m k c (List.mem_of_mem_drop h2))

theorem renderValue_strip (v : Value) (h : ValueWf v) :
    pyStrip (renderValue v) = renderValue v := by
  cases v with
  | int n =>
    show (⟨stripChars (intRender n)⟩ : String) = ⟨intRender n⟩
    rw [stripChars_eq_self _ (intRender_nonws n)]
  | real m k =>
    show (⟨stripChars (realRender m k)⟩ : String) = ⟨realRender m k⟩
    rw [stripChars_eq_self _ (realRender_nonws m k)]
  | text s => exact h.1

theorem auto_cast_lineWf (s : String) (h : '\n' ∉ s.data) :
    ValueLineWf (auto_cast s) := by
  refine ⟨auto_cast_wf s, ?_⟩
  unfold auto_cast
  cases hint : intParse? s with
  | some n =>
    intro hmem
    exact absurd (intRender_nonws n '\n' hmem) (by decide)
  | none =>
    cases hdec : decParse? s with
    | some mk =>
      obtain ⟨m, k⟩ := mk
      intro hmem
      exact absurd (realRender_nonws m k '\n' hmem) (by decide)
    | none =>
      intro hmem
      exact h (stripChars_mem s.data '\n' hmem)

/-! ## Strip behavior at the ends of a list -/

theorem stripChars_sublist (l : List Char) : List.Sublist (stripChars l) l := by
  rw [stripChars_eq_rdrop]
  exact ((List.rdropWhile_prefix _ _).sublist).trans (List.dropWhile_sublist _)

theorem stripChars_cons_ws (c : Char) (cs : List Char) (hws : isWS c = true) :
    stripChars (c :: cs) = stripChars cs := by
  rw [stripChars_eq_rdrop, stripChars_eq_rdrop, List.dropWhile_cons_of_pos hws]

theorem stripChars_concat_ws (l : List Char) (c : Char) (hws : isWS c = true) :
    stripChars (l ++ [c]) = stripChars l := by
  rw [stripChars_eq_rdrop, stripChars_eq_rdrop, List.dropWhile_append]
  by_cases hdw : (l.dropWhile isWS).isEmpty
  · rw [if_pos hdw, List.dropWhile_cons_of_pos hws]
    have hnil : l.dropWhile isWS = [] := by
      cases hempty : l.dropWhile isWS with
      | nil => rfl
      | cons a as =>
        rw [hempty] at hdw
        exact absurd hdw (by simp)
    rw [hnil]
    rfl
  · rw [if_neg hdw, List.rdropWhile_concat_pos _ _ _ hws]

theorem head_not_ws_of_strip_self (c : Char) (cs : List Char)
    (h : stripChars (c :: cs) = c :: cs) : isWS c = false := by
  by_cases hws : isWS c = true
  · have h2 := stripChars_cons_ws c cs hws
    rw [h2] at h
    have hlen := congrArg List.length h
    have hle := (stripChars_sublist cs).length_le
    simp at hlen
    omega
  · exact Bool.of_not_eq_true hws

theorem last_not_ws_of_strip_self (l2 : List Char) (d : Char)
    (h : stripChars (l2 ++ [d]) = l2 ++ [d]) : isWS d = false := by
  by_cases hws : isWS d = true
  · have h2 := stripChars_concat_ws l2 d hws
    rw [h2] at h
    have hlen := congrArg List.length h
    have hle := (stripChars_sublist l2).length_le
    simp at hlen
    omega
  · exact Bool.of_not_eq_true hws

theorem dropWhile_ws_append_eq_self (kd X : List Char)
    (hk : stripChars kd = kd) (hkne : kd ≠ []) :
    (kd ++ X).dropWhile isWS = kd ++ X := by
  obtain ⟨c, kd1, rfl⟩ : ∃ c kd1, kd = c :: kd1 := by
    cases kd with
    | nil => exact absurd rfl hkne
    | cons c kd1 => exact ⟨c, kd1, rfl⟩
  have hc := head_not_ws_of_strip_self c kd1 hk
  rw [List.cons_append, List.dropWhile_cons_of_neg (by simp [hc])]

theorem stripChars_key_line (kd r : List Char)
    (hk : stripChars kd = kd) (hkne : kd ≠ []) (hr : stripChars r = r) :
    stripChars (kd ++ ':' :: ' ' :: r) =
      if r = [] then kd ++ [':'] else kd ++ ':' :: ' ' :: r := by
  have hleft : (kd ++ ':' :: ' ' :: r).dropWhile isWS = kd ++ ':' :: ' ' :: r :=
    dropWhile_ws_append_eq_self kd _ hk hkne
  rw [stripChars_eq_rdrop, hleft]
  by_cases hrnil : r = []
  · subst hrnil
    rw [if_pos rfl]
    rw [show kd ++ ':' :: ' ' :: ([] : List Char) = (kd ++ [':']) ++ [' '] by simp]
    rw [List.rdropWhile_concat_pos _ _ ' ' (by decide),
      List.rdropWhile_concat_neg _ _ ':' (by decide)]
  · rw [if_neg hrnil]
    obtain ⟨r1, d, rfl⟩ : ∃ r1 d, r = r1 ++ [d] := by
      rcases List.eq_nil_or_concat r with h1 | ⟨r1, d, h1⟩
      · exact absurd h1 hrnil
      · exact ⟨r1, d, by simpa [List.concat_eq_append] using h1⟩
    have hd : isWS d = false := last_not_ws_of_strip_self r1 d hr
    rw [show kd ++ ':' :: ' ' :: (r1 ++ [d]) = (kd ++ ':' :: ' ' :: r1) ++ [d] by simp]
    rw [List.rdropWhile_concat_neg _ _ d (by simp [hd])]

/-! ## A serialized field line parses back -/

theorem string_data_eq_nil (s : String) (h : s.data = []) : s = "" := by
  cases s
  simp_all

theorem parse_kv_line_shape (kd T : List Char) (hnc : ':' ∉ kd) :
    parse_kv_line ⟨kd ++ ':' :: T⟩ =
      some (⟨stripChars kd⟩, auto_cast (pyStrip ⟨T⟩)) := by
  unfold parse_kv_line
  have hdata : (⟨kd ++ ':' :: T⟩ : String).data = kd ++ ':' :: T := rfl
  have hcontains : (kd ++ ':' :: T).contains ':' = true := by simp
  rw [hdata, if_pos hcontains]
  have hpos : ∀ a ∈ kd, (!(a == ':')) = true := by
    intro a ha
    have hane : a ≠ ':' := fun he => hnc (he ▸ ha)
    simp [hane]
  have htake : (kd ++ ':' :: T).takeWhile (fun c => !(c == ':')) = kd := by
    rw [List.takeWhile_append_of_pos hpos, List.takeWhile_cons_of_neg (by decide)]
    simp
  have hdrop : (kd ++ ':' :: T).dropWhile (fun c => !(c == ':')) = ':' :: T := by
    rw [List.dropWhile_append_of_pos hpos, List.dropWhile_cons_of_neg (by decide)]
  simp only [htake, hdrop, List.tail_cons]

theorem renderValue_data_nil (v : Value) (hv : ValueWf v)
    (h : (renderValue v).data = []) : v = .text "" := by
  cases v with
  | int n =>
    have : intRender n = [] := h
    unfold intRender at this
    rcases List.append_eq_nil.mp this with ⟨-, h2⟩
    exact absurd h2 (natToDigits_ne_nil n.natAbs)
  | real m k =>
    have hr : realRender m k = [] := h
    unfold realRender at hr
    simp only [] at hr
    rcases List.append_eq_nil.mp hr with ⟨-, h2⟩
    exact absurd h2 (by simp)
  | text s =>
    rw [string_data_eq_nil s h]

theorem frame_line_roundtrip (k : String) (v : Value) (hk : KeyWf k) (hv : ValueWf v) :
    pyStrip (k ++ ": " ++ renderValue v) ≠ "" ∧
    parse_kv_line (pyStrip (k ++ ": " ++ renderValue v)) = some (k, v) := by
  obtain ⟨hkne, hkstrip, hknc, -⟩ := hk
  have hkd : stripChars k.data = k.data := congrArg String.data hkstrip
  have hkdne : k.data ≠ [] := fun h => hkne (string_data_eq_nil k h)
  have hrd : stripChars (renderValue v).data = (renderValue v).data :=
    congrArg String.data (renderValue_strip v hv)
  have hdata : (k ++ ": " ++ renderValue v).data =
      k.data ++ ':' :: ' ' :: (renderValue v).data := by
    show (k.data ++ (": " : String).data) ++ (renderValue v).data = _
    simp
  have hstrip : pyStrip (k ++ ": " ++ renderValue v) =
      ⟨if (renderValue v).data = [] then k.data ++ [':']
        else k.data ++ ':' :: ' ' :: (renderValue v).data⟩ := by
    show (⟨stripChars (k ++ ": " ++ renderValue v).data⟩ : String) = _
    rw [hdata, stripChars_key_line k.data (renderValue v).data hkd hkdne hrd]
  by_cases h0 : (renderValue v).data = []
  · have hv0 : v = .text "" := renderValue_data_nil v hv h0
    rw [hstrip, if_pos h0]
    constructor
    · intro hcon
      have := congrArg String.data hcon
      simp at this
    · rw [show (⟨k.data ++ [':']⟩ : String) = ⟨k.data ++ ':' :: []⟩ from rfl,
        parse_kv_line_shape k.data [] hknc, hkd]
      rw [hv0]
      have : auto_cast (pyStrip ⟨([] : List Char)⟩) = .text "" := by decide
      rw [this]
  · rw [hstrip, if_neg h0]
    constructor
    · intro hcon
      have := congrArg String.data hcon
      simp at this
    · rw [show (⟨k.data ++ ':' :: ' ' :: (renderValue v).data⟩ : String) =
        ⟨k.data ++ ':' :: (' ' :: (renderValue v).data)⟩ from rfl,
        parse_kv_line_shape k.data (' ' :: (renderValue v).data) hknc, hkd]
      have hps : pyStrip ⟨' ' :: (renderValue v).data⟩ = renderValue v := by
        show (⟨stripChars (' ' :: (renderValue v).data)⟩ : String) = renderValue v
        rw [stripChars_cons_ws ' ' _ (by decide), hrd]
      rw [hps, auto_cast_renderValue v hv]

/-! ## More dictionary lemmas -/

theorem string_data_append (a b : String) : (a ++ b).data = a.data ++ b.data := by
  cases a
  cases b
  rfl

theorem dictGet?_cons (k1 : String) (v1 : Value) (rest : Frame) (q : String) :
    dictGet? ((k1, v1) :: rest) q =
      if k1 = q then some v1 else dictGet? rest q := rfl

theorem dictSet_cons (k1 : String) (v1 : Value) (rest : Frame) (k : String) (v : Value) :
    dictSet ((k1, v1) :: rest) k v =
      if k1 = k then (k, v) :: rest else (k1, v1) :: dictSet rest k v := rfl

theorem dictGet?_eq_none_iff (f : Frame) (q : String) :
    dictGet? f q = none ↔ q ∉ dictKeys f := by
  induction f with
  | nil => simp [dictGet?, dictKeys]
  | cons kv rest ih =>
    obtain ⟨k1, v1⟩ := kv
    by_cases h1 : k1 = q
    · subst h1
      simp [dictGet?_cons, dictKeys]
    · rw [dictGet?_cons, if_neg h1, ih]
      simp [dictKeys, h1, Ne.symm h1]

theorem dictGet?_mem (f : Frame) (q : String) (w : Value) (h : dictGet? f q = some w) :
    (q, w) ∈ f := by
  induction f with
  | nil => simp [dictGet?] at h
  | cons kv rest ih =>
    obtain ⟨k1, v1⟩ := kv
    by_cases h1 : k1 = q
    · subst h1
      rw [dictGet?_cons, if_pos rfl] at h
      have : v1 = w := Option.some.inj h
      rw [this]
      exact List.mem_cons_self _ _
    · rw [dictGet?_cons, if_neg h1] at h
      exact List.mem_cons_of_mem _ (ih h)

theorem dictSet_append_fresh (f : Frame) (q : String) (w : Value)
    (h : q ∉ dictKeys f) : dictSet f q w = f ++ [(q, w)] := by
  induction f with
  | nil => rfl
  | cons kv rest ih =>
    obtain ⟨k1, v1⟩ := kv
    have h1 : k1 ≠ q := by
      intro he
      exact h (by simp [dictKeys, he])
    have h2 : q ∉ dictKeys rest := by
      intro hm
      exact h (by simp [dictKeys] at hm ⊢; exact Or.inr hm)
    rw [dictSet_cons, if_neg h1, ih h2]
    rfl

theorem dictKeys_append (f g : Frame) : dictKeys (f ++ g) = dictKeys f ++ dictKeys g := by
  simp [dictKeys]

theorem dictGet?_map_pairs (qs : List String) (g : String → Value) (q : String) :
    dictGet? (qs.map fun x => (x, g x)) q = if q ∈ qs then some (g q) else none := by
  induction qs with
  | nil => simp [dictGet?]
  | cons x rest ih =>
    rw [List.map_cons, dictGet?_cons]
    by_cases hx : x = q
    · subst hx
      rw [if_pos rfl, if_pos (List.mem_cons_self x rest)]
    · rw [if_neg hx, ih]
      by_cases hq : q ∈ rest
      · rw [if_pos hq, if_pos (List.mem_cons_of_mem x hq)]
      · rw [if_neg hq, if_neg (by
          intro hc
          rcases List.mem_cons.mp hc with h1 | h1
          · exact hx h1.symm
          · exact hq h1)]

theorem length_filter_ne_of_nodup (l : List String) (a : String)
    (hnd : l.Nodup) (ha : a ∈ l) :
    (l.filter fun x => x ≠ a).length + 1 = l.length := by
  induction l with
  | nil => exact absurd ha (List.not_mem_nil a)
  | cons b rest ih =>
    have hbs := List.nodup_cons.mp hnd
    by_cases hb : b = a
    · subst hb
      have hnm : b ∉ rest := hbs.1
      have hfe : rest.filter (fun x => x ≠ b) = rest := by
        rw [List.filter_eq_self]
        intro x hx
        simp [show x ≠ b from fun he => hnm (he ▸ hx)]
      rw [show (b :: rest).filter (fun x => x ≠ b) = rest.filter (fun x => x ≠ b) from by
        simp, hfe]
      simp
    · have ha2 : a ∈ rest := by
        rcases List.mem_cons.mp ha with h1 | h1
        · exact absurd h1.symm hb
        · exact h1
      rw [show (b :: rest).filter (fun x => x ≠ a) =
        b :: rest.filter (fun x => x ≠ a) from by simp [hb]]
      have := ih hbs.2 ha2
      simp only [List.length_cons]
      omega

/-! ## Parser well-formedness invariants -/

theorem parse_kv_line_eq (line : String) (hc : line.data.contains ':' = true) :
    parse_kv_line line =
      some (pyStrip ⟨line.data.takeWhile fun c => !(c == ':')⟩,
        auto_cast (pyStrip ⟨(line.data.dropWhile fun c => !(c == ':')).tail⟩)) := by
  unfold parse_kv_line
  rw [if_pos hc]
  rfl

theorem parse_kv_line_none (line : String) (hc : ¬ line.data.contains ':' = true) :
    parse_kv_line line = none := by
  unfold parse_kv_line
  rw [if_neg hc]

theorem parsed_key_wf (line : String) (hnl : '\n' ∉ line.data)
    (hne : pyStrip ⟨line.data.takeWhile fun c => !(c == ':')⟩ ≠ "") :
    KeyWf (pyStrip ⟨line.data.takeWhile fun c => !(c == ':')⟩) := by
  refine ⟨hne, pyStrip_idem _, ?_, ?_⟩
  · intro hmem
    have h1 : ':' ∈ line.data.takeWhile fun c => !(c == ':') :=
      stripChars_mem _ ':' hmem
    have h2 := List.mem_takeWhile_imp h1
    simp at h2
  · intro hmem
    have h1 : '\n' ∈ line.data.takeWhile fun c => !(c == ':') :=
      stripChars_mem _ '\n' hmem
    exact hnl ((List.takeWhile_sublist _).subset h1)

theorem parsed_val_lineWf (line : String) (hnl : '\n' ∉ line.data) :
    ValueLineWf (auto_cast (pyStrip ⟨(line.data.dropWhile fun c => !(c == ':')).tail⟩)) := by
  refine auto_cast_lineWf _ ?_
  intro hmem
  have h1 : '\n' ∈ (line.data.dropWhile fun c => !(c == ':')).tail :=
    stripChars_mem _ '\n' hmem
  have h2 : '\n' ∈ line.data.dropWhile fun c => !(c == ':') :=
    (List.tail_sublist _).subset h1
  exact hnl ((List.dropWhile_sublist _).subset h2)

theorem frameStep_wf (fd : Frame) (line : String) (hnl : '\n' ∉ line.data)
    (h : FrameWf fd) : FrameWf (frameStep fd line) := by
  unfold frameStep
  cases hp : parse_kv_line line with
  | none => exact h
  | some kv1 =>
    obtain ⟨k, v⟩ := kv1
    show FrameWf (if k ≠ "" then dictSet fd k v else fd)
    by_cases hcontains : line.data.contains ':' = true
    · have heq := parse_kv_line_eq line hcontains
      rw [hp] at heq
      have hk : k = pyStrip ⟨line.data.takeWhile fun c => !(c == ':')⟩ :=
        congrArg Prod.fst (Option.some.inj heq)
      have hv : v = auto_cast (pyStrip ⟨(line.data.dropWhile fun c => !(c == ':')).tail⟩) :=
        congrArg Prod.snd (Option.some.inj heq)
      by_cases hkne : k ≠ ""
      · rw [if_pos hkne]
        constructor
        · rw [dictKeys_dictSet]
          by_cases hmem : k ∈ dictKeys fd
          · rw [if_pos hmem]
            exact h.1
          · rw [if_neg hmem]
            simp [List.nodup_append, h.1, hmem]
        · intro kv hkv
          rcases mem_dictSet _ _ _ _ hkv with h1 | h1
          · exact h.2 kv h1
          · rw [h1]
            refine ⟨?_, ?_⟩
            · rw [hk]
              exact parsed_key_wf line hnl (hk ▸ hkne)
            · rw [hv]
              exact parsed_val_lineWf line hnl
      · rw [if_neg hkne]
        exact h
    · rw [parse_kv_line_none line hcontains] at hp
      exact absurd hp (by simp)

theorem buildFrame_wf (ls : List String) (h : ∀ l ∈ ls, '\n' ∉ l.data) :
    FrameWf (buildFrame ls) := by
  have hgen : ∀ (ls : List String) (fd : Frame), (∀ l ∈ ls, '\n' ∉ l.data) →
      FrameWf fd → FrameWf (ls.foldl frameStep fd) := by
    intro ls
    induction ls with
    | nil => intro fd _ hfd; exact hfd
    | cons line rest ih =>
      intro fd hnl hfd
      exact ih (frameStep fd line)
        (fun l hl => hnl l (List.mem_cons_of_mem _ hl))
        (frameStep_wf fd line (hnl line (List.mem_cons_self _ _)) hfd)
  exact hgen ls [] h ⟨List.nodup_nil, fun kv hkv => absurd hkv (List.not_mem_nil kv)⟩

theorem mem_chunkFrames_sub (ls : List String) (f : Frame) (h : f ∈ chunkFrames ls) :
    ∃ b : List String, f = buildFrame b ∧ ∀ l ∈ b, l ∈ ls := by
  induction ls using chunkFrames.induct with
  | case1 a b c d e f1 g rest ih =>
    rcases List.mem_cons.mp h with h1 | h1
    · refine ⟨[a, b, c, d, e, f1, g], h1, ?_⟩
      intro l hl
      simp only [List.mem_cons, List.not_mem_nil, or_false] at hl
      rcases hl with rfl | rfl | rfl | rfl | rfl | rfl | rfl <;> simp
    · obtain ⟨b2, hb2, hsub⟩ := ih h1
      exact ⟨b2, hb2, fun l hl => by simp [hsub l hl]⟩
  | case2 ls hno =>
    have hlen : ls.length < 7 := by
      match ls, hno with
      | [], _ => simp
      | [_], _ => simp
      | [_, _], _ => simp
      | [_, _, _], _ => simp
      | [_, _, _, _], _ => simp
      | [_, _, _, _, _], _ => simp
      | [_, _, _, _, _, _], _ => simp
      | a :: b :: c :: d :: e :: f1 :: g :: rest, hno =>
        exact absurd rfl (hno a b c d e f1 g rest)
    rw [chunkFrames_of_short ls hlen] at h
    exact absurd h (List.not_mem_nil f)

/-! ## Line-splitting lemmas -/

theorem splitNl_ne_nil (cs : List Char) : splitNl cs ≠ [] := by
  induction cs with
  | nil => simp [splitNl]
  | cons c rest ih =>
    unfold splitNl
    by_cases hc : c = '\n'
    · simp [hc]
    · rw [if_neg hc]
      cases hrec : splitNl rest with
      | nil => simp
      | cons l ls => simp

theorem splitNl_no_nl (cs : List Char) : ∀ l ∈ splitNl cs, '\n' ∉ l := by
  induction cs with
  | nil =>
    intro l hl
    have : l = [] := by simpa [splitNl] using hl
    simp [this]
  | cons c rest ih =>
    intro l hl
    unfold splitNl at hl
    by_cases hc : c = '\n'
    · rw [if_pos hc] at hl
      rcases List.mem_cons.mp hl with h1 | h1
      · simp [h1]
      · exact ih l h1
    · rw [if_neg hc] at hl
      cases hrec : splitNl rest with
      | nil => exact absurd hrec (splitNl_ne_nil rest)
      | cons l1 ls1 =>
        rw [hrec] at hl
        rcases List.mem_cons.mp hl with h1 | h1
        · rw [h1]
          intro hmem
          rcases List.mem_cons.mp hmem with h2 | h2
          · exact hc h2.symm
          · exact ih l1 (by rw [hrec]; exact List.mem_cons_self _ _) h2
        · exact ih l (by rw [hrec]; exact List.mem_cons_of_mem _ h1)

theorem stripLines_facts (raw : String) :
    ∀ l ∈ stripLines raw, pyStrip l = l ∧ l ≠ "" ∧ '\n' ∉ l.data := by
  intro l hl
  unfold stripLines at hl
  have hfil := List.mem_filter.mp hl
  obtain ⟨l0, hl0, hmap⟩ := List.mem_map.mp hfil.1
  refine ⟨?_, by simpa using hfil.2, ?_⟩
  · rw [← hmap]
    exact pyStrip_idem l0
  · intro hmem
    rw [← hmap] at hmem
    have h1 : '\n' ∈ l0.data := stripChars_mem _ '\n' hmem
    obtain ⟨cs, hcs, hl0eq⟩ := List.mem_map.mp hl0
    rw [← hl0eq] at h1
    exact splitNl_no_nl raw.data cs hcs h1

theorem splitNl_single (l : List Char) (h : '\n' ∉ l) : splitNl l = [l] := by
  induction l with
  | nil => rfl
  | cons c rest ih =>
    have hc : c ≠ '\n' := fun he => h (by simp [he])
    unfold splitNl
    rw [if_neg hc, ih (fun hm => h (List.mem_cons_of_mem _ hm))]

theorem splitNl_cons_ne (c : Char) (rest : List Char) (hc : c ≠ '\n') :
    splitNl (c :: rest) =
      match splitNl rest with
      | [] => [[c]]
      | l :: ls => (c :: l) :: ls := by
  conv_lhs => unfold splitNl
  rw [if_neg hc]

theorem splitNl_append_nl (l X : List Char) (h : '\n' ∉ l) :
    splitNl (l ++ '\n' :: X) = l :: splitNl X := by
  induction l with
  | nil => rfl
  | cons c rest ih =>
    have hc : c ≠ '\n' := fun he => h (by simp [he])
    show splitNl (c :: (rest ++ '\n' :: X)) = (c :: rest) :: splitNl X
    rw [splitNl_cons_ne c _ hc, ih (fun hm => h (List.mem_cons_of_mem _ hm))]

theorem splitNl_pyJoin (Ls : List (List Char)) (hne : Ls ≠ [])
    (hnl : ∀ l ∈ Ls, '\n' ∉ l) : splitNl (pyJoin '\n' Ls) = Ls := by
  induction Ls with
  | nil => exact absurd rfl hne
  | cons l rest ih =>
    cases rest with
    | nil =>
      show splitNl (pyJoin '\n' [l]) = [l]
      exact splitNl_single l (hnl l (List.mem_cons_self _ _))
    | cons l2 rest2 =>
      have hjoin : pyJoin '\n' (l :: l2 :: rest2) =
        l ++ '\n' :: pyJoin '\n' (l2 :: rest2) := rfl
      rw [hjoin, splitNl_append_nl l _ (hnl l (List.mem_cons_self _ _)),
        ih (by simp) (fun x hx => hnl x (List.mem_cons_of_mem _ hx))]

theorem readLines_join (lines : List String) (hne : lines ≠ [])
    (hnl : ∀ l ∈ lines, '\n' ∉ l.data) :
    readLines ⟨pyJoin '\n' (lines.map String.data)⟩ = lines := by
  unfold readLines
  rw [show (⟨pyJoin '\n' (lines.map String.data)⟩ : String).data =
    pyJoin '\n' (lines.map String.data) from rfl]
  rw [splitNl_pyJoin (lines.map String.data) (by simpa using hne) ?_]
  · rw [List.map_map]
    have hcomp : (fun l => (⟨l⟩ : String)) ∘ String.data = id := by
      funext s
      rfl
    rw [hcomp, List.map_id]
  · intro l hl
    obtain ⟨s, hs, hseq⟩ := List.mem_map.mp hl
    rw [← hseq]
    exact hnl s hs

/-! ## Per-frame serialization round trip -/

theorem frameLines_eq (f : Frame) :
    frameLines f = ("Frame: " ++ renderOpt (dictGet? f "Frame")) ::
      (((dictKeys f).filter fun k => k ≠ "Frame").insertionSort strLe).map
        (fun k => k ++ ": " ++ renderOpt (dictGet? f k)) := rfl

theorem frameLines_congr (g f : Frame) (hg : (dictKeys g).Nodup)
    (hf : (dictKeys f).Nodup) (he : frameEquiv g f) : frameLines g = frameLines f := by
  have hmem : ∀ q, q ∈ dictKeys g ↔ q ∈ dictKeys f := by
    intro q
    constructor
    · intro hq
      by_contra hq2
      have h1 : dictGet? f q = none := (dictGet?_eq_none_iff f q).mpr hq2
      exact ((dictGet?_eq_none_iff g q).mp (by rw [he q, h1])) hq
    · intro hq
      by_contra hq2
      have h1 : dictGet? g q = none := (dictGet?_eq_none_iff g q).mpr hq2
      exact ((dictGet?_eq_none_iff f q).mp (by rw [← he q, h1])) hq
  have hperm : (dictKeys g).Perm (dictKeys f) :=
    (List.perm_ext_iff_of_nodup hg hf).mpr hmem
  have hsort_eq : ((dictKeys g).filter fun k => k ≠ "Frame").insertionSort strLe =
      ((dictKeys f).filter fun k => k ≠ "Frame").insertionSort strLe := by
    refine List.eq_of_perm_of_sorted ?_ (List.sorted_insertionSort _ _)
      (List.sorted_insertionSort _ _)
    exact ((List.perm_insertionSort _ _).trans (hperm.filter _)).trans
      (List.perm_insertionSort _ _).symm
  rw [frameLines_eq, frameLines_eq, hsort_eq, he "Frame"]
  congr 1
  exact List.map_congr_left (fun q _ => by rw [he q])

theorem buildFrame_fold_append (qs : List String) (g : String → Value) (acc : Frame)
    (hnd : qs.Nodup) (hfresh : ∀ q ∈ qs, q ∉ dictKeys acc)
    (hkey : ∀ q ∈ qs, KeyWf q) (hval : ∀ q ∈ qs, ValueWf (g q)) :
    List.foldl frameStep acc
      (qs.map fun q => pyStrip (q ++ ": " ++ renderValue (g q))) =
      acc ++ qs.map fun q => (q, g q) := by
  induction qs generalizing acc with
  | nil => simp
  | cons q rest ih =>
    have hkq := hkey q (List.mem_cons_self _ _)
    have hvq := hval q (List.mem_cons_self _ _)
    have hparse := (frame_line_roundtrip q (g q) hkq hvq).2
    have hstep : frameStep acc (pyStrip (q ++ ": " ++ renderValue (g q))) =
        dictSet acc q (g q) := by
      unfold frameStep
      rw [hparse]
      show (if q ≠ "" then dictSet acc q (g q) else acc) = dictSet acc q (g q)
      rw [if_pos hkq.1]
    have hfresh2 : ∀ x ∈ rest, x ∉ dictKeys (acc ++ [(q, g q)]) := by
      intro x hx
      rw [dictKeys_append]
      intro hmem
      rcases List.mem_append.mp hmem with h1 | h1
      · exact hfresh x (List.mem_cons_of_mem _ hx) h1
      · have hxq : x = q := by simpa [dictKeys] using h1
        exact (List.nodup_cons.mp hnd).1 (hxq ▸ hx)
    rw [List.map_cons, List.foldl_cons, hstep,
      dictSet_append_fresh acc q (g q) (hfresh q (List.mem_cons_self _ _))]
    rw [ih (acc ++ [(q, g q)]) (List.nodup_cons.mp hnd).2 hfresh2
      (fun x hx => hkey x (List.mem_cons_of_mem _ hx))
      (fun x hx => hval x (List.mem_cons_of_mem _ hx))]
    simp

theorem frame_roundtrip (f : Frame) (vF : Value) (hwf : FrameWf f)
    (h7 : f.length = 7) (hF : dictGet? f "Frame" = some vF) :
    (frameLines f).length = 7 ∧
    (∀ l ∈ frameLines f, '\n' ∉ l.data) ∧
    (∀ l ∈ (frameLines f).map pyStrip, l ≠ "") ∧
    frameEquiv (buildFrame ((frameLines f).map pyStrip)) f ∧
    frameLines (buildFrame ((frameLines f).map pyStrip)) = frameLines f := by
  have hFmem : "Frame" ∈ dictKeys f := by
    by_contra hc
    rw [(dictGet?_eq_none_iff f "Frame").mpr hc] at hF
    exact absurd hF (by simp)
  have hFpair := dictGet?_mem f "Frame" vF hF
  have hvFwf : ValueLineWf vF := (hwf.2 _ hFpair).2
  have hKeyWfFrame : KeyWf "Frame" := by
    refine ⟨by decide, by decide, by decide, by decide⟩
  have hqs_perm : (((dictKeys f).filter fun k => k ≠ "Frame").insertionSort strLe).Perm
      ((dictKeys f).filter fun k => k ≠ "Frame") := List.perm_insertionSort _ _
  have hqs_nodup : (((dictKeys f).filter fun k => k ≠ "Frame").insertionSort strLe).Nodup :=
    hqs_perm.symm.nodup (hwf.1.filter _)
  have hqs_mem : ∀ q, q ∈ ((dictKeys f).filter fun k => k ≠ "Frame").insertionSort strLe ↔
      q ∈ dictKeys f ∧ q ≠ "Frame" := by
    intro q
    rw [hqs_perm.mem_iff, List.mem_filter]
    simp
  have hgq : ∀ q ∈ ((dictKeys f).filter fun k => k ≠ "Frame").insertionSort strLe,
      dictGet? f q = some ((dictGet? f q).getD (Value.text "")) := by
    intro q hq
    have hmem := ((hqs_mem q).mp hq).1
    cases hget : dictGet? f q with
    | none => exact absurd ((dictGet?_eq_none_iff f q).mp hget) (by simp [hmem])
    | some w => rfl
  have hpair : ∀ q ∈ ((dictKeys f).filter fun k => k ≠ "Frame").insertionSort strLe,
      (q, (dictGet? f q).getD (Value.text "")) ∈ f := by
    intro q hq
    exact dictGet?_mem f q _ (hgq q hq)
  have hKeyWfs : ∀ q ∈ ((dictKeys f).filter fun k => k ≠ "Frame").insertionSort strLe,
      KeyWf q := fun q hq => (hwf.2 _ (hpair q hq)).1
  have hValWfs : ∀ q ∈ ((dictKeys f).filter fun k => k ≠ "Frame").insertionSort strLe,
      ValueLineWf ((dictGet? f q).getD (Value.text "")) :=
    fun q hq => (hwf.2 _ (hpair q hq)).2
  have hlines : frameLines f = ("Frame" ++ ": " ++ renderValue vF) ::
      (((dictKeys f).filter fun k => k ≠ "Frame").insertionSort strLe).map
        (fun q => q ++ ": " ++ renderValue ((dictGet? f q).getD (Value.text ""))) := by
    rw [frameLines_eq]
    congr 1
    · rw [hF]
      rfl
    · refine List.map_congr_left ?_
      intro q hq
      rw [hgq q hq]
      rfl
  have hkeycount :
      (((dictKeys f).filter fun k => k ≠ "Frame").insertionSort strLe).length = 6 := by
    rw [hqs_perm.length_eq]
    have h1 := length_filter_ne_of_nodup (dictKeys f) "Frame" hwf.1 hFmem
    have h2 : (dictKeys f).length = 7 := by
      rw [show (dictKeys f).length = f.length from by simp [dictKeys], h7]
    omega
  have hbuilt : buildFrame ((frameLines f).map pyStrip) =
      ("Frame", vF) :: (((dictKeys f).filter fun k => k ≠ "Frame").insertionSort strLe).map
        (fun q => (q, (dictGet? f q).getD (Value.text ""))) := by
    rw [hlines]
    unfold buildFrame
    rw [List.map_cons, List.foldl_cons]
    have hstep0 : frameStep [] (pyStrip ("Frame" ++ ": " ++ renderValue vF)) =
        [("Frame", vF)] := by
      unfold frameStep
      rw [(frame_line_roundtrip "Frame" vF hKeyWfFrame hvFwf.1).2]
      show (if ("Frame" : String) ≠ "" then dictSet [] "Frame" vF else []) = [("Frame", vF)]
      rw [if_pos (by decide)]
      rfl
    rw [hstep0]
    have hmapmap : ((((dictKeys f).filter fun k => k ≠ "Frame").insertionSort strLe).map
        (fun q => q ++ ": " ++ renderValue ((dictGet? f q).getD (Value.text "")))).map pyStrip =
        (((dictKeys f).filter fun k => k ≠ "Frame").insertionSort strLe).map
          (fun q => pyStrip (q ++ ": " ++ renderValue ((dictGet? f q).getD (Value.text "")))) := by
      rw [List.map_map]
      rfl
    have hfresh1 : ∀ q ∈ ((dictKeys f).filter fun k => k ≠ "Frame").insertionSort strLe,
        q ∉ dictKeys [("Frame", vF)] := by
      intro q hq
      have := ((hqs_mem q).mp hq).2
      simp [dictKeys, this]
    rw [hmapmap,
      buildFrame_fold_append _ _ [("Frame", vF)] hqs_nodup hfresh1 hKeyWfs
        (fun q hq => (hValWfs q hq).1)]
    rfl
  have hbuilt_keys : dictKeys (buildFrame ((frameLines f).map pyStrip)) =
      "Frame" :: ((dictKeys f).filter fun k => k ≠ "Frame").insertionSort strLe := by
    rw [hbuilt]
    show "Frame" :: dictKeys _ = _
    congr 1
    unfold dictKeys
    rw [List.map_map]
    exact List.map_congr_left (fun q _ => rfl) |>.trans (List.map_id _)
  have hbuilt_nodup : (dictKeys (buildFrame ((frameLines f).map pyStrip))).Nodup := by
    rw [hbuilt_keys]
    refine List.nodup_cons.mpr ⟨?_, hqs_nodup⟩
    intro hmem
    exact ((hqs_mem "Frame").mp hmem).2 rfl
  have hequiv : frameEquiv (buildFrame ((frameLines f).map pyStrip)) f := by
    intro q
    rw [hbuilt, dictGet?_cons]
    by_cases hq : "Frame" = q
    · rw [if_pos hq, ← hq, hF]
    · rw [if_neg hq, dictGet?_map_pairs]
      by_cases hqin : q ∈ ((dictKeys f).filter fun k => k ≠ "Frame").insertionSort strLe
      · rw [if_pos hqin, hgq q hqin]
        rfl
      · rw [if_neg hqin]
        have hnot : q ∉ dictKeys f := by
          intro hmem
          exact hqin ((hqs_mem q).mpr ⟨hmem, fun he => hq he.symm⟩)
        rw [(dictGet?_eq_none_iff f q).mpr hnot]
  refine ⟨?_, ?_, ?_, hequiv, ?_⟩
  · rw [hlines, List.length_cons, List.length_map, hkeycount]
  · rw [hlines]
    intro l hl
    rcases List.mem_cons.mp hl with rfl | hl2
    · rw [string_data_append, string_data_append]
      intro hmem
      rcases List.mem_append.mp hmem with h1 | h1
      · rcases List.mem_append.mp h1 with h2 | h2
        · simp at h2
        · simp at h2
      · exact hvFwf.2 h1
    · obtain ⟨q, hq, rfl⟩ := List.mem_map.mp hl2
      rw [string_data_append, string_data_append]
      intro hmem
      rcases List.mem_append.mp hmem with h1 | h1
      · rcases List.mem_append.mp h1 with h2 | h2
        · exact (hKeyWfs q hq).2.2.2 h2
        · simp at h2
      · exact (hValWfs q hq).2 h1
  · rw [hlines]
    intro l hl
    rw [List.map_cons] at hl
    rcases List.mem_cons.mp hl with rfl | hl2
    · exact (frame_line_roundtrip "Frame" vF hKeyWfFrame hvFwf.1).1
    · rw [List.map_map] at hl2
      obtain ⟨q, hq, rfl⟩ := List.mem_map.mp hl2
      exact (frame_line_roundtrip q _ (hKeyWfs q hq) (hValWfs q hq).1).1
  · exact frameLines_congr _ f hbuilt_nodup hwf.1 hequiv

/-! ## Document-level round trip -/

theorem chunkFrames_flatten (blocks : List (List String))
    (h7 : ∀ b ∈ blocks, b.length = 7) :
    chunkFrames blocks.flatten = blocks.map buildFrame := by
  induction blocks with
  | nil => rfl
  | cons b rest ih =>
    have hb : b.length = 7 := h7 b (List.mem_cons_self _ _)
    match b, hb with
    | [], hb => simp at hb
    | [_], hb => simp at hb
    | [_, _], hb => simp at hb
    | [_, _, _], hb => simp at hb
    | [_, _, _, _], hb => simp at hb
    | [_, _, _, _, _], hb => simp at hb
    | [_, _, _, _, _, _], hb => simp at hb
    | a1 :: a2 :: a3 :: a4 :: a5 :: a6 :: a7 :: t, hb =>
      have ht : t = [] := by
        simp only [List.length_cons] at hb
        exact List.length_eq_zero.mp (by omega)
      subst ht
      rw [List.flatten_cons, List.map_cons]
      show buildFrame [a1, a2, a3, a4, a5, a6, a7] :: chunkFrames rest.flatten = _
      rw [ih (fun x hx => h7 x (List.mem_cons_of_mem _ hx))]

theorem forall₂_map_self {α β : Type} (R : β → α → Prop) (g : α → β) (l : List α)
    (h : ∀ x ∈ l, R (g x) x) : List.Forall₂ R (l.map g) l := by
  induction l with
  | nil => exact List.Forall₂.nil
  | cons a t ih =>
    exact List.Forall₂.cons (h a (List.mem_cons_self _ _))
      (ih (fun x hx => h x (List.mem_cons_of_mem _ hx)))

theorem get_frames_serialize (frames : List Frame) (header : String)
    (hhne : header ≠ "") (hh : pyStrip header = header) (hhnl : '\n' ∉ header.data)
    (hf : ∀ f ∈ frames, FrameWf f ∧ f.length = 7 ∧ (dictGet? f "Frame").isSome) :
    get_frames (serialize_frames frames header) =
      (frames.map (fun f => buildFrame ((frameLines f).map pyStrip)), header) ∧
    ∀ f ∈ frames, frameEquiv (buildFrame ((frameLines f).map pyStrip)) f ∧
      frameLines (buildFrame ((frameLines f).map pyStrip)) = frameLines f := by
  have hrt : ∀ f ∈ frames, (frameLines f).length = 7 ∧
      (∀ l ∈ frameLines f, '\n' ∉ l.data) ∧
      (∀ l ∈ (frameLines f).map pyStrip, l ≠ "") ∧
      frameEquiv (buildFrame ((frameLines f).map pyStrip)) f ∧
      frameLines (buildFrame ((frameLines f).map pyStrip)) = frameLines f := by
    intro f hfm
    obtain ⟨hwf, h7, hsome⟩ := hf f hfm
    obtain ⟨vF, hvF⟩ := Option.isSome_iff_exists.mp hsome
    exact frame_roundtrip f vF hwf h7 hvF
  have hnl : ∀ l ∈ serializeLines frames header, '\n' ∉ l.data := by
    intro l hl
    unfold serializeLines at hl
    rcases List.mem_cons.mp hl with rfl | hl2
    · exact hhnl
    · obtain ⟨b, hb, hlb⟩ := List.mem_flatten.mp hl2
      obtain ⟨f, hfm, rfl⟩ := List.mem_map.mp hb
      exact (hrt f hfm).2.1 l hlb
  have hread : readLines (serialize_frames frames header) = serializeLines frames header :=
    readLines_join _ (by unfold serializeLines; exact List.cons_ne_nil _ _) hnl
  have hstrip : stripLines (serialize_frames frames header) =
      header :: (frames.map (fun f => (frameLines f).map pyStrip)).flatten := by
    unfold stripLines
    rw [hread]
    unfold serializeLines
    rw [List.map_cons, hh, List.map_flatten, List.map_map]
    refine List.filter_eq_self.mpr ?_
    intro a ha
    rcases List.mem_cons.mp ha with rfl | ha2
    · simpa using hhne
    · obtain ⟨b, hb, hab⟩ := List.mem_flatten.mp ha2
      obtain ⟨f, hfm, rfl⟩ := List.mem_map.mp hb
      have : a ∈ (frameLines f).map pyStrip := hab
      simpa using (hrt f hfm).2.2.1 a this
  have hblocks : ∀ b ∈ frames.map (fun f => (frameLines f).map pyStrip), b.length = 7 := by
    intro b hb
    obtain ⟨f, hfm, rfl⟩ := List.mem_map.mp hb
    rw [List.length_map]
    exact (hrt f hfm).1
  refine ⟨?_, fun f hfm => ⟨(hrt f hfm).2.2.2.1, (hrt f hfm).2.2.2.2⟩⟩
  unfold get_frames
  rw [hstrip]
  show (chunkFrames ((frames.map fun f => (frameLines f).map pyStrip).flatten), header) = _
  rw [chunkFrames_flatten _ hblocks, List.map_map]
  rfl

/-- C1: Round-trip stability holds for Documents produced by Parse whose
frames are full records: if every frame parsed from `raw` has exactly 7
fields and contains the "Frame" key, then re-parsing the serialization
preserves the header, yields frames equal field-for-field to the
originals, and `serialize (parse (serialize d))` equals `serialize d`.
(Without the fullness hypothesis the round trip fails; see the
counterexample.) -/
theorem parse_serialize_roundtrip (raw : String)
    (h7 : ∀ f ∈ (get_frames raw).1, f.length = 7 ∧ (dictGet? f "Frame").isSome) :
    (get_frames (serialize_frames (get_frames raw).1 (get_frames raw).2)).2
      = (get_frames raw).2 ∧
    List.Forall₂ frameEquiv
      (get_frames (serialize_frames (get_frames raw).1 (get_frames raw).2)).1
      (get_frames raw).1 ∧
    serialize_frames
      (get_frames (serialize_frames (get_frames raw).1 (get_frames raw).2)).1
      (get_frames (serialize_frames (get_frames raw).1 (get_frames raw).2)).2
      = serialize_frames (get_frames raw).1 (get_frames raw).2 := by
  cases hsl : stripLines raw with
  | nil =>
    have hgf : get_frames raw = ([], "") := by
      unfold get_frames
      rw [hsl]
    rw [hgf]
    show (get_frames (serialize_frames [] "")).2 = "" ∧
      List.Forall₂ frameEquiv (get_frames (serialize_frames [] "")).1 [] ∧
      serialize_frames (get_frames (serialize_frames [] "")).1
        (get_frames (serialize_frames [] "")).2 = serialize_frames [] ""
    have hser : get_frames (serialize_frames [] "") = ([], "") := by decide
    rw [hser]
    exact ⟨rfl, List.Forall₂.nil, rfl⟩
  | cons header rest =>
    have hgf : get_frames raw = (chunkFrames rest, header) := by
      unfold get_frames
      rw [hsl]
    have hhmem : header ∈ stripLines raw := by
      rw [hsl]
      exact List.mem_cons_self _ _
    have hhfacts := stripLines_facts raw header hhmem
    have hfwf : ∀ f ∈ chunkFrames rest, FrameWf f := by
      intro f hfm
      obtain ⟨b, rfl, hsub⟩ := mem_chunkFrames_sub rest f hfm
      refine buildFrame_wf b ?_
      intro l hl
      have hlm : l ∈ stripLines raw := by
        rw [hsl]
        exact List.mem_cons_of_mem _ (hsub l hl)
      exact (stripLines_facts raw l hlm).2.2
    have hfall : ∀ f ∈ chunkFrames rest,
        FrameWf f ∧ f.length = 7 ∧ (dictGet? f "Frame").isSome := by
      intro f hfm
      exact ⟨hfwf f hfm, h7 f (by rw [hgf]; exact hfm)⟩
    obtain ⟨hmain, hper⟩ := get_frames_serialize (chunkFrames rest) header
      hhfacts.2.1 hhfacts.1 hhfacts.2.2 hfall
    rw [hgf]
    show (get_frames (serialize_frames (chunkFrames rest) header)).2 = header ∧
      List.Forall₂ frameEquiv
        (get_frames (serialize_frames (chunkFrames rest) header)).1 (chunkFrames rest) ∧
      serialize_frames (get_frames (serialize_frames (chunkFrames rest) header)).1
        (get_frames (serialize_frames (chunkFrames rest) header)).2
        = serialize_frames (chunkFrames rest) header
    rw [hmain]
    refine ⟨rfl, ?_, ?_⟩
    · exact forall₂_map_self frameEquiv _ _ (fun f hfm => (hper f hfm).1)
    · have hfl : ((chunkFrames rest).map
          fun f => buildFrame ((frameLines f).map pyStrip)).map frameLines
          = (chunkFrames rest).map frameLines := by
        rw [List.map_map]
        exact List.map_congr_left (fun f hfm => (hper f hfm).2)
      show serialize_frames
        ((chunkFrames rest).map fun f => buildFrame ((frameLines f).map pyStrip)) header
        = serialize_frames (chunkFrames rest) header
      unfold serialize_frames serializeLines
      rw [hfl]

theorem parse_serialize_roundtrip_witness :
    (∀ f ∈ (get_frames fullRecordInput).1,
      f.length = 7 ∧ (dictGet? f "Frame").isSome) ∧
    ((get_frames (serialize_frames (get_frames fullRecordInput).1
        (get_frames fullRecordInput).2)).2 = (get_frames fullRecordInput).2 ∧
      List.Forall₂ frameEquiv
        (get_frames (serialize_frames (get_frames fullRecordInput).1
          (get_frames fullRecordInput).2)).1
        (get_frames fullRecordInput).1 ∧
      serialize_frames
        (get_frames (serialize_frames (get_frames fullRecordInput).1
          (get_frames fullRecordInput).2)).1
        (get_frames (serialize_frames (get_frames fullRecordInput).1
          (get_frames fullRecordInput).2)).2
        = serialize_frames (get_frames fullRecordInput).1
            (get_frames fullRecordInput).2) :=
  ⟨by decide, parse_serialize_roundtrip fullRecordInput (by decide)⟩

/-- C1 counterexample: `sparseRecordInput` parses to one (sparse) frame,
but re-parsing its serialization yields no frames at all, and the second
serialization differs from the first: the round trip fails for a Document
produced by Parse. -/
theorem parse_serialize_roundtrip_counterexample :
    (get_frames sparseRecordInput).1 ≠ [] ∧
    (get_frames (serialize_frames (get_frames sparseRecordInput).1
      (get_frames sparseRecordInput).2)).1 = [] ∧
    serialize_frames
      (get_frames (serialize_frames (get_frames sparseRecordInput).1
        (get_frames sparseRecordInput).2)).1
      (get_frames (serialize_frames (get_frames sparseRecordInput).1
        (get_frames sparseRecordInput).2)).2
      ≠ serialize_frames (get_frames sparseRecordInput).1
          (get_frames sparseRecordInput).2 := by
  decide
